import Mathlib

/-!
Verification of the polygon/door geometry layer of `learn-fabric-js-next`.

The development shallowly embeds the TypeScript sources:

* `src/tools/feature-tools/shape-tools/door.ts` — point-to-segment
  projection (`getPointToLineDistance`), nearest-edge snapping
  (`findClosestEdgePoint`), boundary path routing
  (`findPathBetweenPoints`) and the two-click door gesture handler
  (`handleMouseDown`);
* `src/lib/drawing-tools/polygon/CustomPolygon.ts` — the polygon
  vertex/edge topology (`addVertexOnEdge`) and door management
  (`addDoor`, `removeDoor`, `updateObjects`).

JavaScript numbers are modelled by `JNum`: exact rationals extended with
`NaN` and the two infinities, with the IEEE-754 special-value rules for
the operations the sources use (rounding is idealised away, which is the
standard idealisation for these claims; every special-value path the
claims depend on — `0/0 = NaN`, `min/max` propagating `NaN`, comparisons
with `NaN` being false — is modelled exactly).

The sources compute `distance = Math.sqrt(dx*dx + dy*dy)` and use the
result only in comparisons against non-negative constants (`< 10`,
`< 5`) and against the running minimum (initially `Infinity`), all of
which `Math.sqrt` preserves, being strictly monotone on `[0, ∞]` and
mapping `NaN` to `NaN`.  The embedding therefore carries the squared
distance `distSq` and compares it against the squared constants; this is
the only place the embedding deviates from the literal source text.
-/

/-- A JavaScript number: `NaN`, `+Infinity`, `-Infinity`, or a finite
value (idealised as an exact rational). -/
inductive JNum where
  | nan : JNum
  | pinf : JNum
  | ninf : JNum
  | num : ℚ → JNum
deriving DecidableEq, Repr

namespace JNum

/-- JS unary minus. -/
def jneg : JNum → JNum
  | nan => nan
  | pinf => ninf
  | ninf => pinf
  | num q => num (-q)

/-- JS addition (`+`). -/
def jadd : JNum → JNum → JNum
  | nan, _ => nan
  | _, nan => nan
  | pinf, ninf => nan
  | ninf, pinf => nan
  | pinf, _ => pinf
  | _, pinf => pinf
  | ninf, _ => ninf
  | _, ninf => ninf
  | num a, num b => num (a + b)

/-- JS subtraction (`-`). -/
def jsub (a b : JNum) : JNum := jadd a (jneg b)

/-- JS multiplication (`*`). -/
def jmul : JNum → JNum → JNum
  | nan, _ => nan
  | _, nan => nan
  | pinf, pinf => pinf
  | pinf, ninf => ninf
  | ninf, pinf => ninf
  | ninf, ninf => pinf
  | pinf, num q => if q = 0 then nan else if 0 < q then pinf else ninf
  | num q, pinf => if q = 0 then nan else if 0 < q then pinf else ninf
  | ninf, num q => if q = 0 then nan else if 0 < q then ninf else pinf
  | num q, ninf => if q = 0 then nan else if 0 < q then ninf else pinf
  | num a, num b => num (a * b)

/-- JS division (`/`): `0/0 = NaN`, `x/0 = ±Infinity` for `x ≠ 0`. -/
def jdiv : JNum → JNum → JNum
  | nan, _ => nan
  | _, nan => nan
  | pinf, pinf => nan
  | pinf, ninf => nan
  | ninf, pinf => nan
  | ninf, ninf => nan
  | pinf, num q => if 0 ≤ q then pinf else ninf
  | ninf, num q => if 0 ≤ q then ninf else pinf
  | num _, pinf => num 0
  | num _, ninf => num 0
  | num a, num b =>
      if b = 0 then (if a = 0 then nan else if 0 < a then pinf else ninf)
      else num (a / b)

/-- JS `Math.min` (NaN-propagating). -/
def jmin : JNum → JNum → JNum
  | nan, _ => nan
  | _, nan => nan
  | ninf, _ => ninf
  | _, ninf => ninf
  | pinf, x => x
  | x, pinf => x
  | num a, num b => num (min a b)

/-- JS `Math.max` (NaN-propagating). -/
def jmax : JNum → JNum → JNum
  | nan, _ => nan
  | _, nan => nan
  | pinf, _ => pinf
  | _, pinf => pinf
  | ninf, x => x
  | x, ninf => x
  | num a, num b => num (max a b)

/-- JS `<` (false whenever an operand is `NaN`). -/
def jlt : JNum → JNum → Bool
  | nan, _ => false
  | _, nan => false
  | pinf, _ => false
  | _, pinf => true
  | ninf, ninf => false
  | ninf, num _ => true
  | num _, ninf => false
  | num a, num b => decide (a < b)

/-- JS `<=` (false whenever an operand is `NaN`). -/
def jle : JNum → JNum → Bool
  | nan, _ => false
  | _, nan => false
  | _, pinf => true
  | pinf, _ => false
  | ninf, _ => true
  | num _, ninf => false
  | num a, num b => decide (a ≤ b)

@[simp] theorem jneg_num (a : ℚ) : jneg (num a) = num (-a) := rfl

@[simp] theorem jadd_num (a b : ℚ) : jadd (num a) (num b) = num (a + b) := rfl

@[simp] theorem jsub_num (a b : ℚ) : jsub (num a) (num b) = num (a - b) := by
  simp [jsub, jadd, sub_eq_add_neg]

@[simp] theorem jmul_num (a b : ℚ) : jmul (num a) (num b) = num (a * b) := rfl

@[simp] theorem jmin_num (a b : ℚ) : jmin (num a) (num b) = num (min a b) := rfl

@[simp] theorem jmax_num (a b : ℚ) : jmax (num a) (num b) = num (max a b) := rfl

@[simp] theorem jlt_num (a b : ℚ) : jlt (num a) (num b) = decide (a < b) := rfl

@[simp] theorem jle_num (a b : ℚ) : jle (num a) (num b) = decide (a ≤ b) := rfl

theorem jdiv_num_of_ne (a b : ℚ) (hb : b ≠ 0) :
    jdiv (num a) (num b) = num (a / b) := by
  simp [jdiv, hb]

@[simp] theorem jmul_nan_left (x : JNum) : jmul nan x = nan := by
  cases x <;> rfl

@[simp] theorem jadd_nan_left (x : JNum) : jadd nan x = nan := by
  cases x <;> rfl

@[simp] theorem jsub_nan_right (x : JNum) : jsub x nan = nan := by
  cases x <;> rfl

@[simp] theorem jadd_nan_right (x : JNum) : jadd x nan = nan := by
  cases x <;> rfl

@[simp] theorem jmul_nan_right (x : JNum) : jmul x nan = nan := by
  cases x <;> rfl

@[simp] theorem jle_nan_right (x : JNum) : jle x nan = false := by
  cases x <;> rfl

@[simp] theorem jle_nan_left (x : JNum) : jle nan x = false := by
  cases x <;> rfl

@[simp] theorem jlt_nan_right (x : JNum) : jlt x nan = false := by
  cases x <;> rfl

@[simp] theorem jlt_nan_left (x : JNum) : jlt nan x = false := by
  cases x <;> rfl

/-- Multiplying any JS number by finite `0` yields `0` or `NaN`, never a
nonzero finite value; used for the zero-length-edge analysis. -/
theorem jmul_zero_right (x : JNum) : jmul x (num 0) = num 0 ∨ jmul x (num 0) = nan := by
  cases x with
  | nan => exact Or.inr rfl
  | pinf => exact Or.inr (by simp [jmul])
  | ninf => exact Or.inr (by simp [jmul])
  | num q => exact Or.inl (by simp [jmul])

end JNum

open JNum

/-- A 2-D point with JS-number coordinates (`fabric.Point`). -/
structure JPoint where
  x : JNum
  y : JNum
deriving DecidableEq, Repr

/-- An edge's stored segment: (`edge.x1`,`edge.y1`) = `p1`,
(`edge.x2`,`edge.y2`) = `p2`, in the polygon's local frame. -/
structure Seg where
  p1 : JPoint
  p2 : JPoint
deriving DecidableEq, Repr

/-- Default segment for out-of-range list reads (never reached under the
theorems' hypotheses). -/
def defaultSeg : Seg := ⟨⟨num 0, num 0⟩, ⟨num 0, num 0⟩⟩

/-- Result of `getPointToLineDistance`.  `distSq` is the square of the
source's `distance` (see the header comment on `Math.sqrt`). -/
structure PLDResult where
  distSq : JNum
  point : JPoint
  t : JNum
deriving DecidableEq, Repr

/-- `getPointToLineDistance(point, lineStart, lineEnd)` from `door.ts`:
projects `point` onto the segment's line, clamps the parameter `t` with
`Math.max(0, Math.min(1, dot / lineLengthSq))`, and returns the clamped
projection together with the (squared) distance to it. -/
def getPointToLineDistance (point lineStart lineEnd : JPoint) : PLDResult :=
  let lineVectorX := jsub lineEnd.x lineStart.x
  let lineVectorY := jsub lineEnd.y lineStart.y
  let pointVectorX := jsub point.x lineStart.x
  let pointVectorY := jsub point.y lineStart.y
  let lineLengthSq := jadd (jmul lineVectorX lineVectorX) (jmul lineVectorY lineVectorY)
  let t := jmax (num 0) (jmin (num 1)
    (jdiv (jadd (jmul pointVectorX lineVectorX) (jmul pointVectorY lineVectorY)) lineLengthSq))
  let projectionPoint : JPoint :=
    ⟨jadd lineStart.x (jmul t lineVectorX), jadd lineStart.y (jmul t lineVectorY)⟩
  let dx := jsub point.x projectionPoint.x
  let dy := jsub point.y projectionPoint.y
  { distSq := jadd (jmul dx dx) (jmul dy dy), point := projectionPoint, t := t }

/-- Squared distance computed by the source for point `p` against edge
`sg` (the square of `result.distance`). -/
def edgeDistSq (p : JPoint) (sg : Seg) : JNum :=
  (getPointToLineDistance p sg.p1 sg.p2).distSq

/-- The clamped parameter `result.t` for point `p` against edge `sg`. -/
def edgeT (p : JPoint) (sg : Seg) : JNum :=
  (getPointToLineDistance p sg.p1 sg.p2).t

/-- The clamped projection `result.point` for point `p` against edge `sg`. -/
def edgeProj (p : JPoint) (sg : Seg) : JPoint :=
  (getPointToLineDistance p sg.p1 sg.p2).point

/-- The acceptance test from `findClosestEdgePoint`:
`result.distance < THRESHOLD && result.t >= 0 && result.t <= 1`, with
`THRESHOLD = 10` (so `distSq < 100`). -/
def acceptsEdge (p : JPoint) (sg : Seg) : Bool :=
  jlt (edgeDistSq p sg) (num 100) && jle (num 0) (edgeT p sg) && jle (edgeT p sg) (num 1)

/-- The `forEach` loop of `findClosestEdgePoint`: scans the edges in
sequence, keeping the qualifying candidate with the strictly smallest
distance (`minDistance` starts at `Infinity`, so ties keep the earlier
edge).  The second component of the result pair is the index of the
winning edge in the polygon's edge sequence (edge identity = position). -/
def closestLoop (p : JPoint) : List Seg → Nat → JNum → Option (JPoint × Nat) →
    Option (JPoint × Nat)
  | [], _, _, best => best
  | sg :: rest, i, minDistSq, best =>
      if acceptsEdge p sg then
        if jlt (edgeDistSq p sg) minDistSq then
          closestLoop p rest (i + 1) (edgeDistSq p sg) (some (edgeProj p sg, i))
        else
          closestLoop p rest (i + 1) minDistSq best
      else
        closestLoop p rest (i + 1) minDistSq best

/-- `findClosestEdgePoint` from `door.ts`, over the polygon's edge list
in local coordinates.  (The source first converts the global pointer to
the polygon's local frame through the fabric transform matrix, an
external library operation; the embedding works directly with the local
pointer.)  Returns the snapped point and the winning edge. -/
def findClosestEdgePoint (localPointer : JPoint) (edges : List Seg) :
    Option (JPoint × Nat) :=
  closestLoop localPointer edges 0 pinf none

/-- The routing acceptance test from `findPathBetweenPoints`:
`result.distance < 5 && result.t >= 0 && result.t <= 1` (so
`distSq < 25`). -/
def acceptsEdge5 (p : JPoint) (sg : Seg) : Bool :=
  jlt (edgeDistSq p sg) (num 25) && jle (num 0) (edgeT p sg) && jle (edgeT p sg) (num 1)

/-- The `forEach` loop of `findPathBetweenPoints`: for each edge, both
endpoints are tested against the edge (using their current, possibly
already re-snapped positions — both distance results are computed before
either variable is overwritten, exactly as in the source); every
qualifying edge overwrites the corresponding endpoint with its projection
and records the edge index. -/
def snapLoop : List Seg → Nat → (Option Nat × JPoint) → (Option Nat × JPoint) →
    ((Option Nat × JPoint) × (Option Nat × JPoint))
  | [], _, accStart, accEnd => (accStart, accEnd)
  | sg :: rest, i, (startIdx, localStart), (endIdx, localEnd) =>
      let accStart' :=
        if acceptsEdge5 localStart sg then (some i, edgeProj localStart sg)
        else (startIdx, localStart)
      let accEnd' :=
        if acceptsEdge5 localEnd sg then (some i, edgeProj localEnd sg)
        else (endIdx, localEnd)
      snapLoop rest (i + 1) accStart' accEnd'

/-- The `while` loop of `findPathBetweenPoints`: starting from
`currentIndex = startEdgeIndex`, repeatedly advance
`currentIndex = (currentIndex + 1) % edges.length` and push the entered
edge's start point `(edge.x1, edge.y1)`, until `endEdgeIndex` is
reached.  The loop is given `edges.length` steps of fuel, which suffices
whenever both indices are in range and distinct — exactly the conditions
under which the source loop terminates. -/
def walkLoop (edges : List Seg) (endEdgeIndex : Nat) : Nat → Nat → List JPoint
  | 0, _ => []
  | fuel + 1, currentIndex =>
      let nextIndex := (currentIndex + 1) % edges.length
      let pt := (edges.getD nextIndex defaultSeg).p1
      if nextIndex = endEdgeIndex then [pt]
      else pt :: walkLoop edges endEdgeIndex fuel nextIndex

/-- `findPathBetweenPoints(localStart, localEnd)` from `door.ts`:
re-snap both endpoints with the 5-unit pass, fail with `[]` if either
endpoint found no qualifying edge, return the two snapped points directly
if both landed on the same edge, and otherwise walk the edge sequence
forward (wrapping modulo the edge count) collecting each entered edge's
start vertex. -/
def findPathBetweenPoints (localStart localEnd : JPoint) (edges : List Seg) :
    List JPoint :=
  match snapLoop edges 0 (none, localStart) (none, localEnd) with
  | ((some startEdgeIndex, localStart'), (some endEdgeIndex, localEnd')) =>
      if startEdgeIndex = endEdgeIndex then [localStart', localEnd']
      else
        localStart' :: (walkLoop edges endEdgeIndex edges.length startEdgeIndex ++ [localEnd'])
  | ((none, _), _) => []
  | (_, (none, _)) => []

namespace JNum

@[simp] theorem jmin_nan_right (x : JNum) : jmin x nan = nan := by
  cases x <;> rfl

@[simp] theorem jmax_nan_right (x : JNum) : jmax x nan = nan := by
  cases x <;> rfl

theorem jlt_trans {a b c : JNum} (h1 : jlt a b = true) (h2 : jlt b c = true) :
    jlt a c = true := by
  cases a <;> cases b <;> cases c <;> simp_all [jlt]
  exact h1.trans h2

/-- If `x < minD` and `¬(y < minD)` with `x`, `y` finite, then `x < y`
(the comparison that justifies keeping the first edge on ties). -/
theorem jlt_lt_of_not_lt {minD : JNum} {qx qy : ℚ}
    (h1 : jlt (num qx) minD = true) (h2 : jlt (num qy) minD = false) :
    jlt (num qx) (num qy) = true := by
  cases minD <;> simp_all [jlt]
  exact h1.trans_le h2

end JNum

/-- Shape of every squared distance the source computes: `NaN`,
`+Infinity`, or a non-negative finite value (it is a sum of squares). -/
def IsNNegJ (x : JNum) : Prop :=
  x = nan ∨ x = pinf ∨ ∃ q : ℚ, x = num q ∧ 0 ≤ q

theorem sq_isNNegJ (w : JNum) : IsNNegJ (jmul w w) := by
  cases w with
  | nan => exact Or.inl rfl
  | pinf => exact Or.inr (Or.inl (by simp [jmul]))
  | ninf => exact Or.inr (Or.inl (by simp [jmul]))
  | num q => exact Or.inr (Or.inr ⟨q * q, by simp [jmul], mul_self_nonneg q⟩)

theorem jadd_isNNegJ {x y : JNum} (hx : IsNNegJ x) (hy : IsNNegJ y) :
    IsNNegJ (jadd x y) := by
  rcases hx with h | h | ⟨qx, h, hqx⟩ <;> rcases hy with h' | h' | ⟨qy, h', hqy⟩ <;>
    subst h <;> subst h' <;> simp [IsNNegJ, jadd]
  linarith

theorem edgeDistSq_isNNegJ (p : JPoint) (sg : Seg) : IsNNegJ (edgeDistSq p sg) := by
  unfold edgeDistSq getPointToLineDistance
  exact jadd_isNNegJ (sq_isNNegJ _) (sq_isNNegJ _)

/-- An accepted edge has a finite, non-negative squared distance below
the squared threshold. -/
theorem accepts_distSq_num {p : JPoint} {sg : Seg}
    (h : acceptsEdge p sg = true) :
    ∃ q : ℚ, edgeDistSq p sg = num q ∧ 0 ≤ q ∧ q < 100 := by
  have hd := edgeDistSq_isNNegJ p sg
  unfold acceptsEdge at h
  simp only [Bool.and_eq_true] at h
  rcases hd with hd | hd | ⟨q, hd, hq⟩
  · rw [hd] at h; simp [jlt] at h
  · rw [hd] at h; simp [jlt] at h
  · refine ⟨q, hd, hq, ?_⟩
    have h1 := h.1.1
    rw [hd] at h1
    simpa using h1

theorem accepts_jlt_pinf {p : JPoint} {sg : Seg}
    (h : acceptsEdge p sg = true) : jlt (edgeDistSq p sg) pinf = true := by
  obtain ⟨q, hq, -, -⟩ := accepts_distSq_num h
  rw [hq]; rfl

theorem closestLoop_cons (p : JPoint) (sg : Seg) (rest : List Seg) (i0 : Nat)
    (minD : JNum) (best : Option (JPoint × Nat)) :
    closestLoop p (sg :: rest) i0 minD best =
      if acceptsEdge p sg = true then
        if jlt (edgeDistSq p sg) minD = true then
          closestLoop p rest (i0 + 1) (edgeDistSq p sg) (some (edgeProj p sg, i0))
        else closestLoop p rest (i0 + 1) minD best
      else closestLoop p rest (i0 + 1) minD best := rfl

/-- Once a best candidate exists, the scan never returns `none`. -/
theorem closestLoop_some_persists (p : JPoint) :
    ∀ (l : List Seg) (i0 : Nat) (minD : JNum) (x : JPoint × Nat),
      closestLoop p l i0 minD (some x) ≠ none := by
  intro l
  induction l with
  | nil => intro i0 minD x h; simp [closestLoop] at h
  | cons sg rest ih =>
      intro i0 minD x
      by_cases hacc : acceptsEdge p sg
      · by_cases hbeat : jlt (edgeDistSq p sg) minD
        · simpa [closestLoop, hacc, hbeat] using ih (i0 + 1) (edgeDistSq p sg) _
        · simpa [closestLoop, hacc, hbeat] using ih (i0 + 1) minD x
      · simpa [closestLoop, hacc] using ih (i0 + 1) minD x

/-- The scan returns `none` exactly when no remaining edge both passes
the acceptance test and beats the incoming minimum. -/
theorem closestLoop_none_iff (p : JPoint) :
    ∀ (l : List Seg) (i0 : Nat) (minD : JNum),
      closestLoop p l i0 minD none = none ↔
        ∀ sg ∈ l, ¬(acceptsEdge p sg = true ∧ jlt (edgeDistSq p sg) minD = true) := by
  intro l
  induction l with
  | nil => intro i0 minD; simp [closestLoop]
  | cons sg rest ih =>
      intro i0 minD
      by_cases hacc : acceptsEdge p sg
      · by_cases hbeat : jlt (edgeDistSq p sg) minD
        · rw [closestLoop_cons, if_pos hacc, if_pos hbeat]
          constructor
          · intro h
            exact absurd h (closestLoop_some_persists p rest (i0 + 1) _ _)
          · intro h
            exact absurd ⟨hacc, hbeat⟩ (h sg (List.mem_cons_self sg rest))
        · rw [closestLoop_cons, if_pos hacc, if_neg hbeat]
          rw [ih (i0 + 1) minD]
          constructor
          · intro h sg' hsg'
            rcases List.mem_cons.1 hsg' with h' | h'
            · subst h'; simp [hbeat]
            · exact h sg' h'
          · intro h sg' hsg'
            exact h sg' (List.mem_cons_of_mem sg hsg')
      · rw [closestLoop_cons, if_neg hacc]
        rw [ih (i0 + 1) minD]
        constructor
        · intro h sg' hsg'
          rcases List.mem_cons.1 hsg' with h' | h'
          · subst h'; simp [hacc]
          · exact h sg' h'
        · intro h sg' hsg'
          exact h sg' (List.mem_cons_of_mem sg hsg')

/-- Full characterization of a successful scan: the winner either was the
incoming best (and no scanned edge beat the incoming minimum), or is a
scanned edge that qualifies, strictly beats every earlier qualifying
scanned edge, and is not strictly beaten by any later one. -/
theorem closestLoop_some_spec (p : JPoint) :
    ∀ (l : List Seg) (i0 : Nat) (minD : JNum) (best : Option (JPoint × Nat))
      (pt : JPoint) (j : Nat),
      closestLoop p l i0 minD best = some (pt, j) →
      (best = some (pt, j) ∧
        ∀ m, m < l.length → acceptsEdge p (l.getD m defaultSeg) = true →
          jlt (edgeDistSq p (l.getD m defaultSeg)) minD = false)
      ∨ (∃ m, m < l.length ∧ j = i0 + m ∧
          acceptsEdge p (l.getD m defaultSeg) = true ∧
          pt = edgeProj p (l.getD m defaultSeg) ∧
          jlt (edgeDistSq p (l.getD m defaultSeg)) minD = true ∧
          (∀ m', m' < m → acceptsEdge p (l.getD m' defaultSeg) = true →
            jlt (edgeDistSq p (l.getD m defaultSeg))
              (edgeDistSq p (l.getD m' defaultSeg)) = true) ∧
          (∀ m', m < m' → m' < l.length → acceptsEdge p (l.getD m' defaultSeg) = true →
            jlt (edgeDistSq p (l.getD m' defaultSeg))
              (edgeDistSq p (l.getD m defaultSeg)) = false)) := by
  intro l
  induction l with
  | nil =>
      intro i0 minD best pt j h
      simp only [closestLoop] at h
      exact Or.inl ⟨h, by intro m hm; simp at hm⟩
  | cons sg rest ih =>
      intro i0 minD best pt j h
      rw [closestLoop_cons] at h
      by_cases hacc : acceptsEdge p sg = true
      · by_cases hbeat : jlt (edgeDistSq p sg) minD = true
        · rw [if_pos hacc, if_pos hbeat] at h
          rcases ih (i0 + 1) (edgeDistSq p sg) _ pt j h with ⟨hb, hall⟩ | ⟨m, hm, hj, hacc', hpt, hbeat', hearl, hlater⟩
          · have hb' : edgeProj p sg = pt ∧ i0 = j := by simpa using hb
            refine Or.inr ⟨0, by simp, ?_, ?_, ?_, ?_, ?_, ?_⟩
            · simpa using hb'.2.symm
            · simpa using hacc
            · simpa using hb'.1.symm
            · simpa using hbeat
            · intro m' hm'; omega
            · intro m' hm0 hmlen hacc''
              cases m' with
              | zero => omega
              | succ m'' =>
                  simp only [List.getD_cons_succ] at hacc'' ⊢
                  simp only [List.length_cons] at hmlen
                  exact hall m'' (by omega) hacc''
          · refine Or.inr ⟨m + 1, ?_, ?_, ?_, ?_, ?_, ?_, ?_⟩
            · simp only [List.length_cons]; omega
            · omega
            · simpa using hacc'
            · simpa using hpt
            · simp only [List.getD_cons_succ]
              exact jlt_trans hbeat' hbeat
            · intro m' hm' hacc''
              cases m' with
              | zero =>
                  simp only [List.getD_cons_succ, List.getD_cons_zero] at hacc'' ⊢
                  exact hbeat'
              | succ m'' =>
                  simp only [List.getD_cons_succ] at hacc'' ⊢
                  exact hearl m'' (by omega) hacc''
            · intro m' hm0 hmlen hacc''
              cases m' with
              | zero => omega
              | succ m'' =>
                  simp only [List.getD_cons_succ] at hacc'' ⊢
                  simp only [List.length_cons] at hmlen
                  exact hlater m'' (by omega) (by omega) hacc''
        · rw [if_pos hacc, if_neg hbeat] at h
          rcases ih (i0 + 1) minD best pt j h with ⟨hb, hall⟩ | ⟨m, hm, hj, hacc', hpt, hbeat', hearl, hlater⟩
          · refine Or.inl ⟨hb, ?_⟩
            intro m hmlen hacc''
            cases m with
            | zero =>
                simp only [List.getD_cons_zero] at hacc'' ⊢
                exact Bool.not_eq_true _ ▸ (by simpa using hbeat)
            | succ m'' =>
                simp only [List.getD_cons_succ] at hacc'' ⊢
                simp only [List.length_cons] at hmlen
                exact hall m'' (by omega) hacc''
          · refine Or.inr ⟨m + 1, ?_, ?_, ?_, ?_, ?_, ?_, ?_⟩
            · simp only [List.length_cons]; omega
            · omega
            · simpa using hacc'
            · simpa using hpt
            · simpa using hbeat'
            · intro m' hm' hacc''
              cases m' with
              | zero =>
                  simp only [List.getD_cons_succ, List.getD_cons_zero] at hacc'' ⊢
                  obtain ⟨qx, hqx, -, -⟩ := accepts_distSq_num hacc'
                  obtain ⟨qy, hqy, -, -⟩ := accepts_distSq_num hacc''
                  rw [hqx, hqy]
                  rw [hqx] at hbeat'
                  have hbf : jlt (edgeDistSq p sg) minD = false := by
                    simpa using hbeat
                  rw [hqy] at hbf
                  exact jlt_lt_of_not_lt hbeat' hbf
              | succ m'' =>
                  simp only [List.getD_cons_succ] at hacc'' ⊢
                  exact hearl m'' (by omega) hacc''
            · intro m' hm0 hmlen hacc''
              cases m' with
              | zero => omega
              | succ m'' =>
                  simp only [List.getD_cons_succ] at hacc'' ⊢
                  simp only [List.length_cons] at hmlen
                  exact hlater m'' (by omega) (by omega) hacc''
      · rw [if_neg hacc] at h
        rcases ih (i0 + 1) minD best pt j h with ⟨hb, hall⟩ | ⟨m, hm, hj, hacc', hpt, hbeat', hearl, hlater⟩
        · refine Or.inl ⟨hb, ?_⟩
          intro m hmlen hacc''
          cases m with
          | zero =>
              simp only [List.getD_cons_zero] at hacc''
              exact absurd hacc'' hacc
          | succ m'' =>
              simp only [List.getD_cons_succ] at hacc'' ⊢
              simp only [List.length_cons] at hmlen
              exact hall m'' (by omega) hacc''
        · refine Or.inr ⟨m + 1, ?_, ?_, ?_, ?_, ?_, ?_, ?_⟩
          · simp only [List.length_cons]; omega
          · omega
          · simpa using hacc'
          · simpa using hpt
          · simpa using hbeat'
          · intro m' hm' hacc''
            cases m' with
            | zero =>
                simp only [List.getD_cons_zero] at hacc''
                exact absurd hacc'' hacc
            | succ m'' =>
                simp only [List.getD_cons_succ] at hacc'' ⊢
                exact hearl m'' (by omega) hacc''
          · intro m' hm0 hmlen hacc''
            cases m' with
            | zero => omega
            | succ m'' =>
                simp only [List.getD_cons_succ] at hacc'' ⊢
                simp only [List.length_cons] at hmlen
                exact hlater m'' (by omega) (by omega) hacc''

/-- C7: for every query point (in the polygon's local frame),
`findClosestEdgePoint` returns `none` exactly when no edge passes the
acceptance test (distance below `THRESHOLD = 10` with clamped `t` in
`[0,1]`); otherwise it returns the winning edge's projection, whose
distance is strictly below the threshold, the winner beats every earlier
qualifying edge strictly (so exact ties keep the first edge in the
polygon's edge sequence) and is not strictly beaten by any later one. -/
theorem C7_findClosestEdgePoint_closest (p : JPoint) (edges : List Seg) :
    (findClosestEdgePoint p edges = none ↔
      ∀ sg ∈ edges, acceptsEdge p sg = false) ∧
    (∀ pt j, findClosestEdgePoint p edges = some (pt, j) →
      j < edges.length ∧
      acceptsEdge p (edges.getD j defaultSeg) = true ∧
      jlt (edgeDistSq p (edges.getD j defaultSeg)) (num 100) = true ∧
      pt = edgeProj p (edges.getD j defaultSeg) ∧
      (∀ m, m < j → acceptsEdge p (edges.getD m defaultSeg) = true →
        jlt (edgeDistSq p (edges.getD j defaultSeg))
          (edgeDistSq p (edges.getD m defaultSeg)) = true) ∧
      (∀ m, j < m → m < edges.length → acceptsEdge p (edges.getD m defaultSeg) = true →
        jlt (edgeDistSq p (edges.getD m defaultSeg))
          (edgeDistSq p (edges.getD j defaultSeg)) = false)) := by
  constructor
  · rw [findClosestEdgePoint, closestLoop_none_iff]
    constructor
    · intro h sg hsg
      by_contra hacc
      rw [Bool.not_eq_false] at hacc
      exact h sg hsg ⟨hacc, accepts_jlt_pinf hacc⟩
    · intro h sg hsg hc
      rw [h sg hsg] at hc
      exact Bool.false_ne_true hc.1
  · intro pt j h
    rw [findClosestEdgePoint] at h
    rcases closestLoop_some_spec p edges 0 pinf none pt j h with ⟨hb, -⟩ | ⟨m, hm, hj, hacc, hpt, -, hearl, hlater⟩
    · exact absurd hb (Option.noConfusion)
    · have hjm : j = m := by omega
      subst hjm
      obtain ⟨q, hq, -, hq100⟩ := accepts_distSq_num hacc
      refine ⟨hm, hacc, ?_, hpt, hearl, hlater⟩
      rw [hq]
      simpa using hq100

/-- The thin-rectangle fixture (vertices `(0,0) (10,0) (10,3) (0,3)`)
used to observe snapping behaviour near two parallel edges. -/
def thinRect : List Seg :=
  [⟨⟨num 0, num 0⟩, ⟨num 10, num 0⟩⟩,
   ⟨⟨num 10, num 0⟩, ⟨num 10, num 3⟩⟩,
   ⟨⟨num 10, num 3⟩, ⟨num 0, num 3⟩⟩,
   ⟨⟨num 0, num 3⟩, ⟨num 0, num 0⟩⟩]

unseal Rat.mul Rat.inv Rat.add Rat.sub Nat.gcd in
/-- Witness for C7 at a concrete input: on `thinRect`, the query point
`(5,1)` snaps to edge `0` at `(5,0)`, and the theorem's conclusions hold
there. -/
theorem C7_findClosestEdgePoint_closest_witness :
    findClosestEdgePoint ⟨num 5, num 1⟩ thinRect = some (⟨num 5, num 0⟩, 0) ∧
    (0 < thinRect.length ∧
      acceptsEdge ⟨num 5, num 1⟩ (thinRect.getD 0 defaultSeg) = true ∧
      jlt (edgeDistSq ⟨num 5, num 1⟩ (thinRect.getD 0 defaultSeg)) (num 100) = true ∧
      (⟨num 5, num 0⟩ : JPoint) = edgeProj ⟨num 5, num 1⟩ (thinRect.getD 0 defaultSeg) ∧
      (∀ m, m < 0 → acceptsEdge ⟨num 5, num 1⟩ (thinRect.getD m defaultSeg) = true →
        jlt (edgeDistSq ⟨num 5, num 1⟩ (thinRect.getD 0 defaultSeg))
          (edgeDistSq ⟨num 5, num 1⟩ (thinRect.getD m defaultSeg)) = true) ∧
      (∀ m, 0 < m → m < thinRect.length →
        acceptsEdge ⟨num 5, num 1⟩ (thinRect.getD m defaultSeg) = true →
        jlt (edgeDistSq ⟨num 5, num 1⟩ (thinRect.getD m defaultSeg))
          (edgeDistSq ⟨num 5, num 1⟩ (thinRect.getD 0 defaultSeg)) = false)) :=
  ⟨by decide, (C7_findClosestEdgePoint_closest ⟨num 5, num 1⟩ thinRect).2
    ⟨num 5, num 0⟩ 0 (by decide)⟩

/-- For a zero-length segment (both endpoints the same finite point),
the division `dot / lineLengthSq` is `0 / 0 = NaN`, and `NaN` propagates
through the clamp, the projection and the distance. -/
theorem getPointToLineDistance_degenerate (p : JPoint) (cx cy : ℚ) :
    getPointToLineDistance p ⟨num cx, num cy⟩ ⟨num cx, num cy⟩ =
      { distSq := JNum.nan, point := ⟨JNum.nan, JNum.nan⟩, t := JNum.nan } := by
  obtain ⟨px, py⟩ := p
  cases px <;> cases py <;>
    simp [getPointToLineDistance, jsub, jneg, jadd, jmul, jdiv, jmin, jmax]

/-- C10: `findClosestEdgePoint` is total in the presence of a zero-length
edge: for such an edge the computed parameter and distance are `NaN`
(not finite), the acceptance test fails, and the zero-length edge is
never returned as the snapped edge, for any query point. -/
theorem C10_zero_length_edge_never_snapped
    (edges : List Seg) (p : JPoint) (i : Nat) (cx cy : ℚ)
    (hz : edges.getD i defaultSeg = ⟨⟨num cx, num cy⟩, ⟨num cx, num cy⟩⟩) :
    (getPointToLineDistance p ⟨num cx, num cy⟩ ⟨num cx, num cy⟩).t = JNum.nan ∧
    (getPointToLineDistance p ⟨num cx, num cy⟩ ⟨num cx, num cy⟩).distSq = JNum.nan ∧
    acceptsEdge p (edges.getD i defaultSeg) = false ∧
    ∀ pt, findClosestEdgePoint p edges ≠ some (pt, i) := by
  have hdeg := getPointToLineDistance_degenerate p cx cy
  have hacc : acceptsEdge p (edges.getD i defaultSeg) = false := by
    rw [hz]
    unfold acceptsEdge edgeDistSq edgeT
    rw [show (⟨⟨num cx, num cy⟩, ⟨num cx, num cy⟩⟩ : Seg).p1 = ⟨num cx, num cy⟩ from rfl,
      show (⟨⟨num cx, num cy⟩, ⟨num cx, num cy⟩⟩ : Seg).p2 = ⟨num cx, num cy⟩ from rfl,
      hdeg]
    simp
  refine ⟨by rw [hdeg], by rw [hdeg], hacc, ?_⟩
  intro pt h
  rw [findClosestEdgePoint] at h
  rcases closestLoop_some_spec p edges 0 pinf none pt i h with ⟨hb, -⟩ | ⟨m, hm, hj, hacc', -, -, -, -⟩
  · exact Option.noConfusion hb
  · have : m = i := by omega
    subst this
    rw [hacc'] at hacc
    exact Bool.true_eq_false ▸ hacc

/-- A fixture containing a zero-length edge. -/
def degenerateSegs : List Seg :=
  [⟨⟨num 0, num 0⟩, ⟨num 10, num 0⟩⟩, ⟨⟨num 5, num 1⟩, ⟨num 5, num 1⟩⟩]

unseal Rat.mul Rat.inv Rat.add Rat.sub Nat.gcd in
/-- Witness for C10: in a polygon whose edge `1` has zero length, the
query point `(5,1)` (which lies on that edge's single point) is never
snapped to it. -/
theorem C10_zero_length_edge_never_snapped_witness :
    degenerateSegs.getD 1 defaultSeg = ⟨⟨num 5, num 1⟩, ⟨num 5, num 1⟩⟩ ∧
    ((getPointToLineDistance ⟨num 5, num 1⟩ ⟨num 5, num 1⟩ ⟨num 5, num 1⟩).t = JNum.nan ∧
     (getPointToLineDistance ⟨num 5, num 1⟩ ⟨num 5, num 1⟩ ⟨num 5, num 1⟩).distSq = JNum.nan ∧
     acceptsEdge ⟨num 5, num 1⟩ (degenerateSegs.getD 1 defaultSeg) = false ∧
     ∀ pt, findClosestEdgePoint ⟨num 5, num 1⟩ degenerateSegs ≠ some (pt, 1)) :=
  ⟨by decide, C10_zero_length_edge_never_snapped degenerateSegs ⟨num 5, num 1⟩ 1 5 1 (by decide)⟩

/-- C2 (amended): for every finite point `P` and every *non-degenerate*
segment `[A,B]`, `getPointToLineDistance` returns a parameter `t` lying
in `[0,1]` and a projection equal to `A + t·(B−A)` (hence lying on the
segment).  For the zero-length segment `A = B` the source divides by a
zero squared length, so the returned `t` and distance are `NaN` — not
`t = 0` and the distance to the single point `A` as the claim states —
and such a candidate fails every acceptance test in which the result is
used. -/
theorem C2_pointToSegment_param_and_projection (px py ax ay bx byy : ℚ) :
    (¬(ax = bx ∧ ay = byy) →
      ∃ tq : ℚ, 0 ≤ tq ∧ tq ≤ 1 ∧
        getPointToLineDistance ⟨num px, num py⟩ ⟨num ax, num ay⟩ ⟨num bx, num byy⟩ =
          { distSq := num ((px - (ax + tq * (bx - ax))) * (px - (ax + tq * (bx - ax))) +
              (py - (ay + tq * (byy - ay))) * (py - (ay + tq * (byy - ay)))),
            point := ⟨num (ax + tq * (bx - ax)), num (ay + tq * (byy - ay))⟩,
            t := num tq }) ∧
    ((getPointToLineDistance ⟨num px, num py⟩ ⟨num ax, num ay⟩ ⟨num ax, num ay⟩).t
        = JNum.nan ∧
     (getPointToLineDistance ⟨num px, num py⟩ ⟨num ax, num ay⟩ ⟨num ax, num ay⟩).distSq
        = JNum.nan) := by
  refine ⟨?_, by rw [getPointToLineDistance_degenerate],
    by rw [getPointToLineDistance_degenerate]⟩
  intro h
  have hlen : (bx - ax) * (bx - ax) + (byy - ay) * (byy - ay) ≠ 0 := by
    intro h0
    apply h
    constructor <;> nlinarith [mul_self_nonneg (bx - ax), mul_self_nonneg (byy - ay)]
  refine ⟨max 0 (min 1 (((px - ax) * (bx - ax) + (py - ay) * (byy - ay)) /
      ((bx - ax) * (bx - ax) + (byy - ay) * (byy - ay)))),
    le_max_left _ _, max_le (by norm_num) (min_le_left _ _), ?_⟩
  unfold getPointToLineDistance
  simp only [jsub_num, jmul_num, jadd_num]
  rw [jdiv_num_of_ne _ _ hlen]
  simp only [jmin_num, jmax_num, jadd_num, jmul_num, jsub_num]

unseal Rat.mul Rat.inv Rat.add Rat.sub Nat.gcd in
/-- Counterexample to C2 as stated: for `P = (3,4)` and the zero-length
segment `A = B = (0,0)`, the claim asserts `t = 0` and distance `5`
(squared distance `25`); the code returns `NaN` for both. -/
theorem C2_degenerate_counterexample :
    (getPointToLineDistance ⟨num 3, num 4⟩ ⟨num 0, num 0⟩ ⟨num 0, num 0⟩).t = JNum.nan ∧
    (getPointToLineDistance ⟨num 3, num 4⟩ ⟨num 0, num 0⟩ ⟨num 0, num 0⟩).t ≠ num 0 ∧
    (getPointToLineDistance ⟨num 3, num 4⟩ ⟨num 0, num 0⟩ ⟨num 0, num 0⟩).distSq ≠ num 25 := by
  decide

unseal Rat.mul Rat.inv Rat.add Rat.sub Nat.gcd in
/-- Witness for the amended C2 at a concrete input: `P = (3,4)`,
`A = (0,0)`, `B = (10,0)` — the parameter is `3/10` and the projection
`(3,0)` lies on the segment. -/
theorem C2_pointToSegment_param_and_projection_witness :
    ¬((0:ℚ) = 10 ∧ (0:ℚ) = 0) ∧
    (∃ tq : ℚ, 0 ≤ tq ∧ tq ≤ 1 ∧
      getPointToLineDistance ⟨num 3, num 4⟩ ⟨num 0, num 0⟩ ⟨num 10, num 0⟩ =
        { distSq := num ((3 - (0 + tq * (10 - 0))) * (3 - (0 + tq * (10 - 0))) +
            (4 - (0 + tq * (0 - 0))) * (4 - (0 + tq * (0 - 0)))),
          point := ⟨num (0 + tq * (10 - 0)), num (0 + tq * (0 - 0))⟩,
          t := num tq }) :=
  ⟨by decide, (C2_pointToSegment_param_and_projection 3 4 0 0 10 0).1 (by decide)⟩

/-- Single-endpoint view of `snapLoop`: the two accumulators of the
source's `forEach` evolve independently, so the pass factors into two
copies of this function (`snapLoop_eq_pair`). -/
def snapOne : List Seg → Nat → (Option Nat × JPoint) → (Option Nat × JPoint)
  | [], _, acc => acc
  | sg :: rest, i, (idx, pt) =>
      if acceptsEdge5 pt sg then snapOne rest (i + 1) (some i, edgeProj pt sg)
      else snapOne rest (i + 1) (idx, pt)

theorem snapLoop_eq_pair :
    ∀ (l : List Seg) (i0 : Nat) (a b : Option Nat × JPoint),
      snapLoop l i0 a b = (snapOne l i0 a, snapOne l i0 b) := by
  intro l
  induction l with
  | nil => intro i0 a b; obtain ⟨ai, ap⟩ := a; obtain ⟨bi, bp⟩ := b; rfl
  | cons sg rest ih =>
      intro i0 a b
      obtain ⟨ai, ap⟩ := a
      obtain ⟨bi, bp⟩ := b
      show snapLoop rest (i0 + 1) _ _ = _
      rw [ih]
      by_cases ha : acceptsEdge5 ap sg <;> by_cases hb : acceptsEdge5 bp sg <;>
        simp [snapOne, ha, hb]

theorem snapOne_cons (sg : Seg) (rest : List Seg) (i : Nat) (idx : Option Nat)
    (pt : JPoint) :
    snapOne (sg :: rest) i (idx, pt) =
      if acceptsEdge5 pt sg then snapOne rest (i + 1) (some i, edgeProj pt sg)
      else snapOne rest (i + 1) (idx, pt) := rfl

/-- A `some` first component survives the rest of the pass. -/
theorem snapOne_some_persists :
    ∀ (l : List Seg) (i0 i : Nat) (pt : JPoint),
      ∃ j pt', snapOne l i0 (some i, pt) = (some j, pt') := by
  intro l
  induction l with
  | nil => intro i0 i pt; exact ⟨i, pt, rfl⟩
  | cons sg rest ih =>
      intro i0 i pt
      rw [snapOne_cons]
      by_cases h : acceptsEdge5 pt sg
      · rw [if_pos h]; exact ih (i0 + 1) i0 _
      · rw [if_neg h]; exact ih (i0 + 1) i _

/-- The pass leaves an endpoint untouched (and finds no edge) exactly
when no edge qualifies against the endpoint's original position. -/
theorem snapOne_none_iff :
    ∀ (l : List Seg) (i0 : Nat) (p : JPoint),
      ((snapOne l i0 (none, p)).1 = none ↔ ∀ sg ∈ l, acceptsEdge5 p sg = false) ∧
      ((∀ sg ∈ l, acceptsEdge5 p sg = false) → snapOne l i0 (none, p) = (none, p)) := by
  intro l
  induction l with
  | nil => intro i0 p; exact ⟨by simp [snapOne], fun _ => rfl⟩
  | cons sg rest ih =>
      intro i0 p
      constructor
      · rw [snapOne_cons]
        by_cases h : acceptsEdge5 p sg
        · rw [if_pos h]
          obtain ⟨j, pt', hj⟩ := snapOne_some_persists rest (i0 + 1) i0 (edgeProj p sg)
          rw [hj]
          simp only [List.mem_cons]
          constructor
          · intro hc; exact absurd hc (by simp)
          · intro hall
            exact absurd (hall sg (Or.inl rfl)) (by simp [h])
        · rw [if_neg h]
          rw [(ih (i0 + 1) p).1]
          constructor
          · intro hall sg' hsg'
            rcases List.mem_cons.1 hsg' with h' | h'
            · subst h'; simpa using h
            · exact hall sg' h'
          · intro hall sg' hsg'
            exact hall sg' (List.mem_cons_of_mem sg hsg')
      · intro hall
        have hsg : acceptsEdge5 p sg = false := hall sg (List.mem_cons_self sg rest)
        rw [snapOne_cons, if_neg (by simp [hsg])]
        exact (ih (i0 + 1) p).2 (fun sg' hsg' => hall sg' (List.mem_cons_of_mem sg hsg'))

/-- Index bound for a successful pass: a found index is either the
incoming one or lies in the scanned range. -/
theorem snapOne_idx_lt :
    ∀ (l : List Seg) (i0 : Nat) (idx : Option Nat) (pt : JPoint) (j : Nat),
      (snapOne l i0 (idx, pt)).1 = some j →
      idx = some j ∨ (i0 ≤ j ∧ j < i0 + l.length) := by
  intro l
  induction l with
  | nil => intro i0 idx pt j h; exact Or.inl (by simpa [snapOne] using h)
  | cons sg rest ih =>
      intro i0 idx pt j h
      rw [snapOne_cons] at h
      by_cases hacc : acceptsEdge5 pt sg
      · rw [if_pos hacc] at h
        rcases ih (i0 + 1) (some i0) _ j h with h' | h'
        · have : i0 = j := by simpa using h'
          right
          simp only [List.length_cons]
          omega
        · right
          simp only [List.length_cons]
          omega
      · rw [if_neg hacc] at h
        rcases ih (i0 + 1) idx pt j h with h' | h'
        · exact Or.inl h'
        · right
          simp only [List.length_cons]
          omega

/-- C5: when both endpoints snap (5-unit routing threshold) onto the
same edge, `findPathBetweenPoints` returns exactly the two snapped
positions; in particular, if the two snapped points coincide the result
is the two-point sequence of that single point. -/
theorem C5_same_edge_two_points (ls le : JPoint) (es : List Seg) (i : Nat)
    (s' e' : JPoint)
    (h : snapLoop es 0 (none, ls) (none, le) = ((some i, s'), (some i, e'))) :
    findPathBetweenPoints ls le es = [s', e'] ∧
    (s' = e' → findPathBetweenPoints ls le es = [s', s']) := by
  have hmain : findPathBetweenPoints ls le es = [s', e'] := by
    unfold findPathBetweenPoints
    rw [h]
    simp
  exact ⟨hmain, fun hse => by rw [hmain, hse]⟩

unseal Rat.mul Rat.inv Rat.add Rat.sub Nat.gcd in
/-- Witness for C5: on a single-edge fixture, `(3,2)` and `(7,1)` both
snap to edge `0`, and the path is exactly the two snapped points. -/
theorem C5_same_edge_two_points_witness :
    snapLoop [⟨⟨num 0, num 0⟩, ⟨num 10, num 0⟩⟩] 0
        (none, ⟨num 3, num 2⟩) (none, ⟨num 7, num 1⟩) =
      ((some 0, ⟨num 3, num 0⟩), (some 0, ⟨num 7, num 0⟩)) ∧
    findPathBetweenPoints ⟨num 3, num 2⟩ ⟨num 7, num 1⟩
        [⟨⟨num 0, num 0⟩, ⟨num 10, num 0⟩⟩] = [⟨num 3, num 0⟩, ⟨num 7, num 0⟩] :=
  ⟨by decide,
   (C5_same_edge_two_points ⟨num 3, num 2⟩ ⟨num 7, num 1⟩
      [⟨⟨num 0, num 0⟩, ⟨num 10, num 0⟩⟩] 0 ⟨num 3, num 0⟩ ⟨num 7, num 0⟩ (by decide)).1⟩

/-- C6: `findPathBetweenPoints` returns the empty sequence if and only
if at least one endpoint has no qualifying edge — no edge of the polygon
within the 5-unit threshold (with clamped `t` in `[0,1]`) of the
endpoint's given position. -/
theorem C6_empty_iff_no_qualifying_edge (ls le : JPoint) (es : List Seg) :
    findPathBetweenPoints ls le es = [] ↔
      (∀ sg ∈ es, acceptsEdge5 ls sg = false) ∨
      (∀ sg ∈ es, acceptsEdge5 le sg = false) := by
  unfold findPathBetweenPoints
  rw [snapLoop_eq_pair]
  rcases hs : snapOne es 0 (none, ls) with ⟨si, s'⟩
  rcases he : snapOne es 0 (none, le) with ⟨ei, e'⟩
  have hsiff := (snapOne_none_iff es 0 ls).1
  have heiff := (snapOne_none_iff es 0 le).1
  rw [hs] at hsiff
  rw [he] at heiff
  simp only at hsiff heiff
  cases si with
  | none =>
      simp only
      constructor
      · intro _; exact Or.inl (hsiff.1 rfl)
      · intro _; trivial
  | some i =>
      cases ei with
      | none =>
          simp only
          constructor
          · intro _; exact Or.inr (heiff.1 rfl)
          · intro _; trivial
      | some j =>
          simp only
          constructor
          · intro hc
            by_cases hij : i = j
            · rw [if_pos hij] at hc; exact absurd hc (by simp)
            · rw [if_neg hij] at hc; exact absurd hc (by simp)
          · intro hc
            rcases hc with hc | hc
            · exact absurd (hsiff.2 hc) (by simp)
            · exact absurd (heiff.2 hc) (by simp)

unseal Rat.mul Rat.inv Rat.add Rat.sub Nat.gcd in
/-- Witness for C6 in both directions: on `thinRect`, routing from the
far-away point `(50,50)` fails (it qualifies against no edge), while
routing between two near-boundary points succeeds (non-empty path). -/
theorem C6_empty_iff_no_qualifying_edge_witness :
    (findPathBetweenPoints ⟨num 50, num 50⟩ ⟨num 5, num 1⟩ thinRect = [] ↔
      (∀ sg ∈ thinRect, acceptsEdge5 ⟨num 50, num 50⟩ sg = false) ∨
      (∀ sg ∈ thinRect, acceptsEdge5 ⟨num 5, num 1⟩ sg = false)) ∧
    findPathBetweenPoints ⟨num 50, num 50⟩ ⟨num 5, num 1⟩ thinRect = [] :=
  ⟨C6_empty_iff_no_qualifying_edge ⟨num 50, num 50⟩ ⟨num 5, num 1⟩ thinRect, by decide⟩

/-- C3 (amended): the endpoints are re-snapped by the sequential pass
`snapLoop` — each edge within 5 units of the endpoint's *current*
(possibly already re-snapped) position overwrites it with its
projection, so the final position comes from the last qualifying edge in
edge-sequence order, not necessarily the nearest one — and the returned
path's first (resp. last) point is that final snapped position of
`localStart` (resp. `localEnd`). -/
theorem C3_endpoints_are_pass_snapped (ls le : JPoint) (es : List Seg)
    (i j : Nat) (s' e' : JPoint)
    (h : snapLoop es 0 (none, ls) (none, le) = ((some i, s'), (some j, e'))) :
    (findPathBetweenPoints ls le es).head? = some s' ∧
    (findPathBetweenPoints ls le es).getLast? = some e' := by
  unfold findPathBetweenPoints
  rw [h]
  by_cases hij : i = j
  · simp [hij]
  · simp only [hij, if_neg, if_false]
    refine ⟨rfl, ?_⟩
    rw [show s' :: (walkLoop es j es.length i ++ [e']) =
      (s' :: walkLoop es j es.length i) ++ [e'] from rfl]
    exact List.getLast?_concat _

/-- Modelled from the spec's words, as the refinement reference for C3
("re-snaps each endpoint independently to its nearest edge among the
edges whose point-to-segment distance is below 5 units"): the nearest
qualifying edge for the *given* point, with its projection; ties keep
the first edge in sequence.  This is what the claim asserts the code
does; `snapLoop` is what the code actually does. -/
def nearestSnapLoop (p : JPoint) : List Seg → Nat → JNum → Option (Nat × JPoint) →
    Option (Nat × JPoint)
  | [], _, _, best => best
  | sg :: rest, i, minD, best =>
      if acceptsEdge5 p sg then
        if jlt (edgeDistSq p sg) minD then
          nearestSnapLoop p rest (i + 1) (edgeDistSq p sg) (some (i, edgeProj p sg))
        else nearestSnapLoop p rest (i + 1) minD best
      else nearestSnapLoop p rest (i + 1) minD best

/-- Modelled from the spec's words (see `nearestSnapLoop`). -/
def nearestSnapSpec (p : JPoint) (edges : List Seg) : Option (Nat × JPoint) :=
  nearestSnapLoop p edges 0 pinf none

unseal Rat.mul Rat.inv Rat.add Rat.sub Nat.gcd in
/-- Counterexample to C3 as stated: on `thinRect`, the point `(5,1)` is
1 unit from edge `0` (its nearest qualifying edge, snap `(5,0)`), but
the source's pass first snaps it to edge `0` and then edge `2` (3 units
from the moved point `(5,0)`) re-snaps it to `(5,3)`; the returned
path's first point is `(5,3)`, not the nearest-edge position `(5,0)`. -/
theorem C3_nearest_snap_counterexample :
    nearestSnapSpec ⟨num 5, num 1⟩ thinRect = some (0, ⟨num 5, num 0⟩) ∧
    (findPathBetweenPoints ⟨num 5, num 1⟩ ⟨num 5, num 1⟩ thinRect).head? =
      some ⟨num 5, num 3⟩ ∧
    (⟨num 5, num 3⟩ : JPoint) ≠ ⟨num 5, num 0⟩ := by
  decide

unseal Rat.mul Rat.inv Rat.add Rat.sub Nat.gcd in
/-- Witness for the amended C3 at a concrete input: both endpoints of
the `thinRect` example end the pass at `(5,3)` on edge `2`, and the
path's first and last points equal those pass-snapped positions. -/
theorem C3_endpoints_are_pass_snapped_witness :
    snapLoop thinRect 0 (none, ⟨num 5, num 1⟩) (none, ⟨num 5, num 1⟩) =
      ((some 2, ⟨num 5, num 3⟩), (some 2, ⟨num 5, num 3⟩)) ∧
    ((findPathBetweenPoints ⟨num 5, num 1⟩ ⟨num 5, num 1⟩ thinRect).head? =
        some ⟨num 5, num 3⟩ ∧
      (findPathBetweenPoints ⟨num 5, num 1⟩ ⟨num 5, num 1⟩ thinRect).getLast? =
        some ⟨num 5, num 3⟩) :=
  ⟨by decide,
   C3_endpoints_are_pass_snapped ⟨num 5, num 1⟩ ⟨num 5, num 1⟩ thinRect 2 2
     ⟨num 5, num 3⟩ ⟨num 5, num 3⟩ (by decide)⟩

theorem walkLoop_succ (es : List Seg) (j fuel cur : Nat) :
    walkLoop es j (fuel + 1) cur =
      if (cur + 1) % es.length = j then
        [(es.getD ((cur + 1) % es.length) defaultSeg).p1]
      else
        (es.getD ((cur + 1) % es.length) defaultSeg).p1 ::
          walkLoop es j fuel ((cur + 1) % es.length) := rfl

/-- The source's `while` loop, run from `cur ≠ j` with enough fuel,
collects exactly the start points of the edges entered on the forward
walk `cur+1, cur+2, …, j` (indices mod the edge count). -/
theorem walkLoop_spec :
    ∀ (fuel : Nat) (es : List Seg) (j cur d : Nat),
      j < es.length → cur < es.length → cur ≠ j →
      d = (if cur < j then j - cur else es.length + j - cur) →
      d ≤ fuel →
      walkLoop es j fuel cur =
        (List.range d).map
          (fun m => (es.getD ((cur + 1 + m) % es.length) defaultSeg).p1) := by
  intro fuel
  induction fuel with
  | zero =>
      intro es j cur d hj hcur hne hd hdf
      exfalso
      by_cases hcj : cur < j <;> simp [hcj] at hd <;> omega
  | succ fuel ih =>
      intro es j cur d hj hcur hne hd hdf
      have hn : 0 < es.length := by omega
      have hnext : ((cur + 1) % es.length = cur + 1 ∧ cur + 1 < es.length) ∨
          ((cur + 1) % es.length = 0 ∧ cur + 1 = es.length) := by
        rcases Nat.lt_or_ge (cur + 1) es.length with h | h
        · exact Or.inl ⟨Nat.mod_eq_of_lt h, h⟩
        · have heq : cur + 1 = es.length := by omega
          exact Or.inr ⟨by rw [heq, Nat.mod_self], heq⟩
      by_cases hhit : (cur + 1) % es.length = j
      · rw [walkLoop_succ, if_pos hhit]
        have hd1 : d = 1 := by
          rcases hnext with ⟨h1, h2⟩ | ⟨h1, h2⟩ <;> by_cases hcj : cur < j <;>
            simp [hcj] at hd <;> rw [h1] at hhit <;> omega
        rw [hd1]
        simp [List.range_succ, hhit]
      · rw [walkLoop_succ, if_neg hhit]
        have hcur' : (cur + 1) % es.length < es.length := Nat.mod_lt _ hn
        have hd' : d - 1 =
            (if (cur + 1) % es.length < j then j - (cur + 1) % es.length
             else es.length + j - (cur + 1) % es.length) := by
          rcases hnext with ⟨h1, h2⟩ | ⟨h1, h2⟩ <;> rw [h1] <;> rw [h1] at hhit <;>
            by_cases hcj : cur < j <;> by_cases hcj' : (if h1x : True then cur else cur) < j <;>
              simp [hcj] at hd <;> split <;> omega
        have hd2 : 2 ≤ d := by
          rcases hnext with ⟨h1, h2⟩ | ⟨h1, h2⟩ <;> rw [h1] at hhit <;>
            by_cases hcj : cur < j <;> simp [hcj] at hd <;> omega
        have hih := ih es j ((cur + 1) % es.length) (d - 1) hj hcur' hhit hd'
          (by omega)
        rw [hih]
        have hdd : d = (d - 1) + 1 := by omega
        rw [hdd, List.range_succ_eq_map, List.map_cons, List.map_map]
        congr 1
        apply List.map_congr_left
        intro m hm
        have hidx : ((cur + 1) % es.length + 1 + m) % es.length
            = (cur + 1 + (m + 1)) % es.length := by
          rw [Nat.add_assoc, Nat.mod_add_mod]
          congr 1
          omega
        rw [hidx]
        rfl

theorem walk_count_eq (n i j : Nat) (hi : i < n) (hj : j < n) (hij : i ≠ j) :
    (n + j - i) % n = (if i < j then j - i else n + j - i) := by
  by_cases h : i < j
  · rw [if_pos h]
    have heq : n + j - i = n + (j - i) := by omega
    rw [heq, Nat.add_mod_left]
    exact Nat.mod_eq_of_lt (by omega)
  · rw [if_neg h]
    exact Nat.mod_eq_of_lt (by omega)

/-- C4: when the two endpoints snap to distinct edges `i ≠ j`,
`findPathBetweenPoints` walks the edge sequence forward from `i` to `j`
wrapping modulo the edge count (never backward), collecting each entered
edge's starting vertex: the result is
`[start, v_1, …, v_k, end]` with `v_m` the start point of edge
`(i+1+m) mod n` and `k = (j - i) mod n`, so the path has `k + 2`
points. -/
theorem C4_walks_forward (ls le : JPoint) (es : List Seg) (i j : Nat)
    (s' e' : JPoint)
    (h : snapLoop es 0 (none, ls) (none, le) = ((some i, s'), (some j, e')))
    (hij : i ≠ j) :
    findPathBetweenPoints ls le es =
      s' :: ((List.range ((es.length + j - i) % es.length)).map
        (fun m => (es.getD ((i + 1 + m) % es.length) defaultSeg).p1) ++ [e']) ∧
    (findPathBetweenPoints ls le es).length =
      2 + (es.length + j - i) % es.length := by
  have hpair := snapLoop_eq_pair es 0 (none, ls) (none, le)
  rw [h] at hpair
  rw [Prod.ext_iff] at hpair
  obtain ⟨hps, hpe⟩ := hpair
  simp only at hps hpe
  have hs1 : (snapOne es 0 (none, ls)).1 = some i := by rw [← hps]
  have he1 : (snapOne es 0 (none, le)).1 = some j := by rw [← hpe]
  have hi : i < es.length := by
    rcases snapOne_idx_lt es 0 none ls i hs1 with h' | h'
    · exact absurd h' (by simp)
    · omega
  have hj : j < es.length := by
    rcases snapOne_idx_lt es 0 none le j he1 with h' | h'
    · exact absurd h' (by simp)
    · omega
  have hwalk := walkLoop_spec es.length es j i
    (if i < j then j - i else es.length + j - i) hj hi hij rfl
    (by by_cases hcj : i < j <;> simp [hcj] <;> omega)
  have hmain : findPathBetweenPoints ls le es =
      s' :: ((List.range ((es.length + j - i) % es.length)).map
        (fun m => (es.getD ((i + 1 + m) % es.length) defaultSeg).p1) ++ [e']) := by
    unfold findPathBetweenPoints
    rw [h]
    simp only [if_neg hij]
    rw [walk_count_eq es.length i j hi hj hij, hwalk]
  refine ⟨hmain, ?_⟩
  rw [hmain]
  simp only [List.length_cons, List.length_append, List.length_map,
    List.length_range, List.length_singleton, List.length_nil]
  omega

/-- The square fixture from the spec scenario: vertices
`(0,0) (10,0) (10,10) (0,10)`, four edges in cyclic order. -/
def squareSegs : List Seg :=
  [⟨⟨num 0, num 0⟩, ⟨num 10, num 0⟩⟩,
   ⟨⟨num 10, num 0⟩, ⟨num 10, num 10⟩⟩,
   ⟨⟨num 10, num 10⟩, ⟨num 0, num 10⟩⟩,
   ⟨⟨num 0, num 10⟩, ⟨num 0, num 0⟩⟩]

unseal Rat.mul Rat.inv Rat.add Rat.sub Nat.gcd in
/-- Witness for C4, realising the spec's square scenario: clicking near
the midpoint of edge `0` (`(5,1)`) and near the midpoint of edge `2`
(`(5,9)`) snaps to edges `0` and `2` and yields a path of exactly 4
points, walking forward through the shared vertices of edges 1 and 2. -/
theorem C4_walks_forward_witness :
    (0 : Nat) ≠ 2 ∧
    snapLoop squareSegs 0 (none, ⟨num 5, num 1⟩) (none, ⟨num 5, num 9⟩) =
      ((some 0, ⟨num 5, num 0⟩), (some 2, ⟨num 5, num 10⟩)) ∧
    findPathBetweenPoints ⟨num 5, num 1⟩ ⟨num 5, num 9⟩ squareSegs =
      ⟨num 5, num 0⟩ ::
        ((List.range ((squareSegs.length + 2 - 0) % squareSegs.length)).map
          (fun m => (squareSegs.getD ((0 + 1 + m) % squareSegs.length) defaultSeg).p1) ++
          [⟨num 5, num 10⟩]) ∧
    (findPathBetweenPoints ⟨num 5, num 1⟩ ⟨num 5, num 9⟩ squareSegs).length = 4 := by
  refine ⟨by decide, by decide, ?_, ?_⟩
  · exact (C4_walks_forward ⟨num 5, num 1⟩ ⟨num 5, num 9⟩ squareSegs 0 2
      ⟨num 5, num 0⟩ ⟨num 5, num 10⟩ (by decide) (by decide)).1
  · rw [(C4_walks_forward ⟨num 5, num 1⟩ ⟨num 5, num 9⟩ squareSegs 0 2
      ⟨num 5, num 0⟩ ⟨num 5, num 10⟩ (by decide) (by decide)).2]
    decide

/-! ## Polygon topology (`CustomPolygon.ts`)

Vertices, edges and doors are identified by allocation ids (JS object
identity); `PolyState` carries the polygon's mutable object graph as
explicit maps.  Fields that only affect rendering (stroke/fill options,
canvas references, event handlers, `setCoords`) are not part of the
state; the corresponding source steps are noted as presentation-only. -/

/-- A `PolygonEdge`'s graph data: endpoint vertices and the
`prevEdge`/`nextEdge` back-references (nullable in the source). -/
structure EdgeRec where
  src : Nat
  tgt : Nat
  prevEdge : Option Nat
  nextEdge : Option Nat
deriving DecidableEq, Repr

/-- Identity of an entry of the group's `_objects` list. -/
inductive ObjId where
  | v : Nat → ObjId
  | e : Nat → ObjId
  | d : Nat → ObjId
deriving DecidableEq, Repr

/-- The mutable state of a `CustomPolygon`: the `vertices`, `edges` and
`doors` sequences, the `_objects` child list, and per-id records for
edges (`edata`), vertex incident-edge lists (`vedges`) and vertex
positions (`vpos`, fabric `left`/`top`).  `freshV`/`freshE`/`freshD` are
the allocation counters: every live id is below the counter of its
kind. -/
structure PolyState where
  verts : List Nat
  edges : List Nat
  edata : Nat → EdgeRec
  vedges : Nat → List Nat
  vpos : Nat → ℚ × ℚ
  doors : List Nat
  objs : List ObjId
  freshV : Nat
  freshE : Nat
  freshD : Nat

/-- JS `Array.prototype.indexOf` (identity comparison): index of the
first occurrence, `-1` if absent. -/
def jsIndexOfAux {α : Type} [DecidableEq α] (x : α) : List α → Int → Int
  | [], _ => -1
  | y :: rest, i => if y = x then i else jsIndexOfAux x rest (i + 1)

/-- JS `indexOf` from position `0`. -/
def jsIndexOf {α : Type} [DecidableEq α] (l : List α) (x : α) : Int :=
  jsIndexOfAux x l 0

/-- JS `Array.prototype.splice` start-position normalisation: negative
indices count from the end, clamped to `[0, length]`. -/
def jsSpliceStart (len : Nat) (idx : Int) : Nat :=
  if idx < 0 then (max ((len : Int) + idx) 0).toNat else min idx.toNat len

/-- `splice(idx, 0, x)`: insert `x` at the normalised position. -/
def jsSpliceInsert {α : Type} (l : List α) (idx : Int) (x : α) : List α :=
  let start := jsSpliceStart l.length idx
  l.take start ++ [x] ++ l.drop start

/-- `splice(idx, 1)`: remove one element at the normalised position. -/
def jsSpliceRemove1 {α : Type} (l : List α) (idx : Int) : List α :=
  let start := jsSpliceStart l.length idx
  l.take start ++ l.drop (start + 1)

/-- `splice(idx, 1, x, y)`: replace one element by two at the
normalised position. -/
def jsSpliceReplace2 {α : Type} (l : List α) (idx : Int) (x y : α) : List α :=
  let start := jsSpliceStart l.length idx
  l.take start ++ [x, y] ++ l.drop (start + 1)

/-- `updateObjects` from `CustomPolygon.ts`: rebuilds `_objects` as
`[...vertices, ...edges, ...doors]` (the canvas/coordinate refresh and
`updateDoors` calls are presentation-only). -/
def updateObjects (s : PolyState) : PolyState :=
  { s with objs := s.verts.map ObjId.v ++ s.edges.map ObjId.e ++ s.doors.map ObjId.d }

/-- `addDoor(door)` from `CustomPolygon.ts`: pushes the door onto
`doors` and `_objects` (the group/canvas wiring and property `set` are
presentation-only), then runs `updateObjects`. -/
def addDoor (s : PolyState) (d : Nat) : PolyState :=
  updateObjects { s with doors := s.doors ++ [d], objs := s.objs ++ [ObjId.d d] }

/-- `removeDoor(door)` from `CustomPolygon.ts`: if the door is found in
`doors` (by identity), remove it there and in `_objects`, then run
`updateObjects`; otherwise do nothing. -/
def removeDoor (s : PolyState) (d : Nat) : PolyState :=
  let doorIndex := jsIndexOf s.doors d
  if doorIndex > -1 then
    let doors' := jsSpliceRemove1 s.doors doorIndex
    let objectIndex := jsIndexOf s.objs (ObjId.d d)
    let objs' := if objectIndex > -1 then jsSpliceRemove1 s.objs objectIndex else s.objs
    updateObjects { s with doors := doors', objs := objs' }
  else s

/-- Step 6 head of `addVertexOnEdge`:
`newEdge1.nextEdge = newEdge2; newEdge2.prevEdge = newEdge1`. -/
def linkAB (h : Nat → EdgeRec) (a b : Nat) : Nat → EdgeRec :=
  let h3 := Function.update h a { h a with nextEdge := some b }
  Function.update h3 b { h3 b with prevEdge := some a }

/-- Step 6 `if (edge.prevEdge) { edge.prevEdge.nextEdge = newEdge1;
newEdge1.prevEdge = edge.prevEdge }`, reading the heap sequentially as
JS does. -/
def relinkPrev (h : Nat → EdgeRec) (e a : Nat) : Nat → EdgeRec :=
  match (h e).prevEdge with
  | some p =>
      let hp := Function.update h p { h p with nextEdge := some a }
      Function.update hp a { hp a with prevEdge := some p }
  | none => h

/-- Step 6 `if (edge.nextEdge) { edge.nextEdge.prevEdge = newEdge2;
newEdge2.nextEdge = edge.nextEdge }`.  The scrutinee is read *after*
the previous block ran, which matters when `edge.prevEdge === edge`. -/
def relinkNext (h : Nat → EdgeRec) (e b : Nat) : Nat → EdgeRec :=
  match (h e).nextEdge with
  | some q =>
      let hq := Function.update h q { h q with prevEdge := some b }
      Function.update hq b { hq b with nextEdge := some q }
  | none => h

/-- All of step 6 of `addVertexOnEdge`, in source order. -/
def step6 (h : Nat → EdgeRec) (e a b : Nat) : Nat → EdgeRec :=
  relinkNext (relinkPrev (linkAB h a b) e a) e b

/-- `addVertexOnEdge(edge, point)` from `CustomPolygon.ts`.  New object
ids are allocated from the fresh counters (JS allocation guarantees the
new vertex and edges are distinct from every live object); the split
edge's endpoints are read from its record before any write, as the
source does. -/
def addVertexOnEdge (s : PolyState) (e : Nat) (pt : ℚ × ℚ) : PolyState :=
  let rec0 := s.edata e
  let newVertex := s.freshV
  let newEdge1 := s.freshE
  let newEdge2 := s.freshE + 1
  -- step 1: create the vertex at `(point.x - 6, point.y - 6)` (fabric
  -- `left`/`top` of the 6-radius handle); styling is presentation-only
  let vpos' := Function.update s.vpos newVertex (pt.1 - 6, pt.2 - 6)
  -- step 2: create the two replacement edges (endpoints inherited from
  -- the split edge; stroke options are presentation-only; links unset)
  let h1 := Function.update s.edata newEdge1 ⟨rec0.src, newVertex, none, none⟩
  let h2 := Function.update h1 newEdge2 ⟨newVertex, rec0.tgt, none, none⟩
  -- step 3 (group back-references) is presentation-only
  -- step 4: `newVertex.edges = [newEdge1, newEdge2]`
  let ve1 := Function.update s.vedges newVertex [newEdge1, newEdge2]
  -- step 5: swap the split edge out of both endpoints' edge lists
  let ve2 := Function.update ve1 rec0.src
    ((ve1 rec0.src).map fun x => if x = e then newEdge1 else x)
  let ve3 := Function.update ve2 rec0.tgt
    ((ve2 rec0.tgt).map fun x => if x = e then newEdge2 else x)
  -- step 6: relink the cycle
  let h6 := step6 h2 e newEdge1 newEdge2
  -- step 7: splice the vertex in before the split edge's target, and
  -- replace the split edge by the two new edges
  let verts' := jsSpliceInsert s.verts (jsIndexOf s.verts rec0.tgt) newVertex
  let edges' := jsSpliceReplace2 s.edges (jsIndexOf s.edges e) newEdge1 newEdge2
  -- steps 8–9: filter the split edge out of `_objects`, push the new
  -- objects (step 14/15 rebuild `_objects` from the sequences anyway)
  let objs1 := (s.objs.filter (fun o => o ≠ ObjId.e e)) ++
    [ObjId.v newVertex, ObjId.e newEdge1, ObjId.e newEdge2]
  -- steps 10–13 (event handlers, canvas references) are
  -- presentation-only; step 14 rebuilds `_objects`; step 15 is
  -- `updateObjects`; step 16 is a redraw request
  updateObjects
    { s with
      verts := verts',
      edges := edges',
      edata := h6,
      vedges := ve3,
      vpos := vpos',
      objs := objs1,
      freshV := s.freshV + 1,
      freshE := s.freshE + 2 }

/-- The cycle relation between consecutive edges: `x.nextEdge === y` and
`y.prevEdge === x`. -/
def edgeRel (h : Nat → EdgeRec) (x y : Nat) : Prop :=
  (h x).nextEdge = some y ∧ (h y).prevEdge = some x

instance (h : Nat → EdgeRec) : DecidableRel (edgeRel h) := fun x y =>
  inferInstanceAs (Decidable ((h x).nextEdge = some y ∧ (h y).prevEdge = some x))

/-- "The edges form one closed cycle" (in edge-sequence order, which is
how the code maintains it): the sequence is non-empty and duplicate-free,
consecutive edges are linked, and the last edge links back to the
first. -/
def cyc (s : PolyState) : Prop :=
  s.edges ≠ [] ∧ s.edges.Nodup ∧ List.Chain' (edgeRel s.edata) s.edges ∧
  edgeRel s.edata (s.edges.getLastD 0) (s.edges.headD 0)

/-- Following `nextEdge` links `k` times (failing on a null link). -/
def iterNext (s : PolyState) : Nat → Nat → Option Nat
  | 0, x => some x
  | k + 1, x =>
      match (s.edata x).nextEdge with
      | none => none
      | some y => iterNext s k y

theorem jsIndexOfAux_append {α : Type} [DecidableEq α] (x : α) (u v : List α)
    (hx : x ∉ u) : ∀ i : Int, jsIndexOfAux x (u ++ x :: v) i = i + u.length := by
  induction u with
  | nil => intro i; simp [jsIndexOfAux]
  | cons y rest ih =>
      intro i
      have hxy : y ≠ x := fun hc => hx (hc ▸ List.mem_cons_self y rest)
      have hxr : x ∉ rest := fun hc => hx (List.mem_cons_of_mem y hc)
      rw [List.cons_append]
      show jsIndexOfAux x (y :: (rest ++ x :: v)) i = i + (y :: rest).length
      rw [show jsIndexOfAux x (y :: (rest ++ x :: v)) i =
        if y = x then i else jsIndexOfAux x (rest ++ x :: v) (i + 1) from rfl]
      rw [if_neg hxy, ih hxr (i + 1)]
      simp only [List.length_cons]
      push_cast
      ring

theorem jsIndexOf_append {α : Type} [DecidableEq α] (x : α) (u v : List α)
    (hx : x ∉ u) : jsIndexOf (u ++ x :: v) x = (u.length : Int) := by
  rw [jsIndexOf, jsIndexOfAux_append x u v hx 0]
  ring

theorem jsSpliceStart_le (len : Nat) (idx : Int) : jsSpliceStart len idx ≤ len := by
  unfold jsSpliceStart
  split
  · omega
  · exact Nat.min_le_right _ _

theorem jsSpliceStart_natCast (len : Nat) (k : Nat) (hk : k ≤ len) :
    jsSpliceStart len (k : Int) = k := by
  unfold jsSpliceStart
  rw [if_neg (by omega)]
  simp [Int.toNat_natCast]
  omega

theorem jsSpliceInsert_length {α : Type} (l : List α) (idx : Int) (x : α) :
    (jsSpliceInsert l idx x).length = l.length + 1 := by
  unfold jsSpliceInsert
  have h := jsSpliceStart_le l.length idx
  simp only [List.length_append, List.length_take, List.length_drop,
    List.length_cons, List.length_nil]
  omega

theorem jsSpliceReplace2_append {α : Type} [DecidableEq α] (u v : List α)
    (e a b : α) (he : e ∉ u) :
    jsSpliceReplace2 (u ++ e :: v) (jsIndexOf (u ++ e :: v) e) a b =
      u ++ a :: b :: v := by
  rw [jsIndexOf_append e u v he]
  unfold jsSpliceReplace2
  have hle : u.length ≤ (u ++ e :: v).length := by simp
  rw [jsSpliceStart_natCast _ _ hle]
  have htake : (u ++ e :: v).take u.length = u := List.take_left u (e :: v)
  have hdrop : (u ++ e :: v).drop (u.length + 1) = v := by
    rw [show u ++ e :: v = (u ++ [e]) ++ v by simp]
    rw [show u.length + 1 = (u ++ [e]).length by simp]
    exact List.drop_left (u ++ [e]) v
  simp only [htake, hdrop]
  simp

theorem jsSpliceRemove1_append {α : Type} [DecidableEq α] (u v : List α)
    (e : α) (he : e ∉ u) :
    jsSpliceRemove1 (u ++ e :: v) (jsIndexOf (u ++ e :: v) e) = u ++ v := by
  rw [jsIndexOf_append e u v he]
  unfold jsSpliceRemove1
  have hle : u.length ≤ (u ++ e :: v).length := by simp
  rw [jsSpliceStart_natCast _ _ hle]
  have htake : (u ++ e :: v).take u.length = u := List.take_left u (e :: v)
  have hdrop : (u ++ e :: v).drop (u.length + 1) = v := by
    rw [show u ++ e :: v = (u ++ [e]) ++ v by simp]
    rw [show u.length + 1 = (u ++ [e]).length by simp]
    exact List.drop_left (u ++ [e]) v
  simp only [htake, hdrop]

theorem jsIndexOfAux_nonneg {α : Type} [DecidableEq α] (x : α) :
    ∀ (l : List α) (i : Int), 0 ≤ i → x ∈ l → 0 ≤ jsIndexOfAux x l i := by
  intro l
  induction l with
  | nil => intro i _ hx; exact absurd hx (List.not_mem_nil x)
  | cons y rest ih =>
      intro i hi hx
      rw [show jsIndexOfAux x (y :: rest) i =
        if y = x then i else jsIndexOfAux x rest (i + 1) from rfl]
      by_cases hxy : y = x
      · rw [if_pos hxy]; exact hi
      · rw [if_neg hxy]
        have hxr : x ∈ rest := by
          rcases List.mem_cons.1 hx with h' | h'
          · exact absurd h'.symm hxy
          · exact h'
        exact ih (i + 1) (by omega) hxr

theorem jsIndexOf_neg_of_not_mem {α : Type} [DecidableEq α] (x : α) :
    ∀ (l : List α) (i : Int), x ∉ l → jsIndexOfAux x l i = -1 := by
  intro l
  induction l with
  | nil => intro i _; rfl
  | cons y rest ih =>
      intro i hx
      rw [show jsIndexOfAux x (y :: rest) i =
        if y = x then i else jsIndexOfAux x rest (i + 1) from rfl]
      have hxy : y ≠ x := fun hc => hx (by rw [← hc]; exact List.mem_cons_self y rest)
      rw [if_neg hxy]
      exact ih (i + 1) (fun hc => hx (List.mem_cons_of_mem y hc))

theorem linkAB_eval (h : Nat → EdgeRec) (a b : Nat) (hab : a ≠ b) :
    linkAB h a b a = { h a with nextEdge := some b } ∧
    linkAB h a b b = { h b with prevEdge := some a } ∧
    ∀ x, x ≠ a → x ≠ b → linkAB h a b x = h x := by
  refine ⟨?_, ?_, ?_⟩
  · simp [linkAB, Function.update_apply, hab]
  · simp [linkAB, Function.update_apply, Ne.symm hab]
  · intro x hxa hxb
    simp [linkAB, Function.update_apply, hxa, hxb]

/-- Heap after `addVertexOnEdge`'s step 6 in the main case: the split
edge has a predecessor `p` and successor `q` distinct from itself. -/
theorem step6_eval (h : Nat → EdgeRec) (e a b p q : Nat)
    (hpe : (h e).prevEdge = some p) (hqe : (h e).nextEdge = some q)
    (hea : e ≠ a) (heb : e ≠ b) (hab : a ≠ b)
    (hpa : p ≠ a) (hpb : p ≠ b) (hpne : p ≠ e)
    (hqa : q ≠ a) (hqb : q ≠ b) (hqne : q ≠ e) :
    (step6 h e a b) a = { h a with nextEdge := some b, prevEdge := some p } ∧
    (step6 h e a b) b = { h b with prevEdge := some a, nextEdge := some q } ∧
    (∀ x, x ≠ a → x ≠ b → x ≠ p → x ≠ q → (step6 h e a b) x = h x) ∧
    (p ≠ q → (step6 h e a b) p = { h p with nextEdge := some a }) ∧
    (p ≠ q → (step6 h e a b) q = { h q with prevEdge := some b }) ∧
    (p = q → (step6 h e a b) p = { h p with nextEdge := some a, prevEdge := some b }) := by
  obtain ⟨hL_a, hL_b, hL_other⟩ := linkAB_eval h a b hab
  have hL_e : linkAB h a b e = h e := hL_other e hea heb
  have hL_p : linkAB h a b p = h p := hL_other p hpa hpb
  have hL_q : linkAB h a b q = h q := hL_other q hqa hqb
  have hscrut1 : (linkAB h a b e).prevEdge = some p := by rw [hL_e, hpe]
  have h5_eval : ∀ x, relinkPrev (linkAB h a b) e a x =
      if x = a then { h a with nextEdge := some b, prevEdge := some p }
      else if x = p then { h p with nextEdge := some a }
      else linkAB h a b x := by
    intro x
    unfold relinkPrev
    rw [hscrut1]
    simp only [Function.update_apply]
    by_cases hxa : x = a
    · rw [if_pos hxa, if_pos hxa, if_neg (Ne.symm hpa), hL_a]
    · rw [if_neg hxa, if_neg hxa]
      by_cases hxp : x = p
      · rw [if_pos hxp, if_pos hxp, hL_p]
      · rw [if_neg hxp, if_neg hxp]
  have hscrut2 : (relinkPrev (linkAB h a b) e a e).nextEdge = some q := by
    rw [h5_eval e, if_neg hea, if_neg (Ne.symm hpne), hL_e, hqe]
  have h6_eval : ∀ x, step6 h e a b x =
      if x = b then { h b with prevEdge := some a, nextEdge := some q }
      else if x = q then { relinkPrev (linkAB h a b) e a q with prevEdge := some b }
      else relinkPrev (linkAB h a b) e a x := by
    intro x
    unfold step6 relinkNext
    rw [hscrut2]
    simp only [Function.update_apply]
    by_cases hxb : x = b
    · rw [if_pos hxb, if_pos hxb, if_neg (Ne.symm hqb)]
      rw [h5_eval b, if_neg (Ne.symm hab), if_neg (Ne.symm hpb), hL_b]
    · rw [if_neg hxb, if_neg hxb]
  refine ⟨?_, ?_, ?_, ?_, ?_, ?_⟩
  · rw [h6_eval a, if_neg hab, if_neg (Ne.symm hqa), h5_eval a, if_pos rfl]
  · rw [h6_eval b, if_pos rfl]
  · intro x hxa hxb hxp hxq
    rw [h6_eval x, if_neg hxb, if_neg hxq, h5_eval x, if_neg hxa, if_neg hxp]
    exact hL_other x hxa hxb
  · intro hpq
    rw [h6_eval p, if_neg hpb, if_neg hpq, h5_eval p, if_neg hpa, if_pos rfl]
  · intro hpq
    rw [h6_eval q, if_neg hqb, if_pos rfl, h5_eval q, if_neg hqa,
      if_neg (fun hc => hpq (hc.symm)), hL_q]
  · intro hpq
    subst hpq
    rw [h6_eval p, if_neg hpb, if_pos rfl, h5_eval p, if_neg hpa, if_pos rfl]

/-- Heap after step 6 in the self-loop case: the split edge is its own
predecessor (a one-edge cycle).  The sequential reads make the second
relink block see `edge.nextEdge === newEdge1` (just written by the first
block), and the two new edges end up forming a perfect two-cycle. -/
theorem step6_eval_alias (h : Nat → EdgeRec) (e a b : Nat)
    (hpe : (h e).prevEdge = some e)
    (hea : e ≠ a) (heb : e ≠ b) (hab : a ≠ b) :
    (step6 h e a b) a = { h a with nextEdge := some b, prevEdge := some b } ∧
    (step6 h e a b) b = { h b with prevEdge := some a, nextEdge := some a } ∧
    (step6 h e a b) e = { h e with nextEdge := some a } ∧
    (∀ x, x ≠ a → x ≠ b → x ≠ e → (step6 h e a b) x = h x) := by
  obtain ⟨hL_a, hL_b, hL_other⟩ := linkAB_eval h a b hab
  have hL_e : linkAB h a b e = h e := hL_other e hea heb
  have hscrut1 : (linkAB h a b e).prevEdge = some e := by rw [hL_e, hpe]
  have h5_eval : ∀ x, relinkPrev (linkAB h a b) e a x =
      if x = a then { h a with nextEdge := some b, prevEdge := some e }
      else if x = e then { h e with nextEdge := some a }
      else linkAB h a b x := by
    intro x
    unfold relinkPrev
    rw [hscrut1]
    simp only [Function.update_apply]
    by_cases hxa : x = a
    · rw [if_pos hxa, if_pos hxa, if_neg (Ne.symm hea), hL_a]
    · rw [if_neg hxa, if_neg hxa]
      by_cases hxe : x = e
      · rw [if_pos hxe, if_pos hxe, hL_e]
      · rw [if_neg hxe, if_neg hxe]
  have hscrut2 : (relinkPrev (linkAB h a b) e a e).nextEdge = some a := by
    rw [h5_eval e, if_neg hea, if_pos rfl]
  have h6_eval : ∀ x, step6 h e a b x =
      if x = b then { h b with prevEdge := some a, nextEdge := some a }
      else if x = a then { h a with nextEdge := some b, prevEdge := some b }
      else relinkPrev (linkAB h a b) e a x := by
    intro x
    unfold step6 relinkNext
    rw [hscrut2]
    simp only [Function.update_apply]
    by_cases hxb : x = b
    · rw [if_pos hxb, if_pos hxb, if_neg (Ne.symm hab)]
      rw [h5_eval b, if_neg (Ne.symm hab), if_neg (Ne.symm heb), hL_b]
    · rw [if_neg hxb, if_neg hxb]
      by_cases hxa : x = a
      · rw [if_pos hxa, if_pos hxa, h5_eval a, if_pos rfl]
      · rw [if_neg hxa, if_neg hxa]
  refine ⟨?_, ?_, ?_, ?_⟩
  · rw [h6_eval a, if_neg hab, if_pos rfl]
  · rw [h6_eval b, if_pos rfl]
  · rw [h6_eval e, if_neg heb, if_neg hea, h5_eval e, if_neg hea, if_pos rfl]
  · intro x hxa hxb hxe
    rw [h6_eval x, if_neg hxb, if_neg hxa, h5_eval x, if_neg hxa, if_neg hxe]
    exact hL_other x hxa hxb

/-- Transfer a chain of links across a heap change that leaves every
non-final element's `nextEdge` and every non-initial element's
`prevEdge` untouched. -/
theorem chain'_heap_congr {h h' : Nat → EdgeRec} :
    ∀ {l : List Nat},
      (∀ x ∈ l.dropLast, (h' x).nextEdge = (h x).nextEdge) →
      (∀ y ∈ l.tail, (h' y).prevEdge = (h y).prevEdge) →
      List.Chain' (edgeRel h) l → List.Chain' (edgeRel h') l := by
  intro l
  induction l with
  | nil => intro _ _ _; exact List.chain'_nil
  | cons x rest ih =>
      intro hnext hprev hch
      cases rest with
      | nil => exact List.chain'_singleton x
      | cons y rest' =>
          rw [List.chain'_cons] at hch ⊢
          obtain ⟨hxy, hch'⟩ := hch
          refine ⟨⟨?_, ?_⟩, ?_⟩
          · rw [hnext x (by simp [List.dropLast_cons₂]), hxy.1]
          · rw [hprev y (by simp), hxy.2]
          · refine ih ?_ ?_ hch'
            · intro z hz
              refine hnext z ?_
              rw [List.dropLast_cons₂]
              exact List.mem_cons_of_mem x hz
            · intro z hz
              exact hprev z (List.mem_cons_of_mem y hz)

theorem getD_zero_eq_headD (l : List Nat) (h : l ≠ []) : l.getD 0 0 = l.headD 0 := by
  cases l with
  | nil => exact absurd rfl h
  | cons x xs => rfl

theorem getLastD_indep :
    ∀ (l : List Nat) (d1 d2 : Nat), l ≠ [] → l.getLastD d1 = l.getLastD d2 := by
  intro l
  induction l with
  | nil => intro d1 d2 h; exact absurd rfl h
  | cons x xs ih =>
      intro d1 d2 _
      cases xs with
      | nil => rfl
      | cons y ys => simp only [List.getLastD_cons]

theorem getD_last_eq_getLastD :
    ∀ (l : List Nat), l ≠ [] → l.getD (l.length - 1) 0 = l.getLastD 0 := by
  intro l
  induction l with
  | nil => intro h; exact absurd rfl h
  | cons x xs ih =>
      intro _
      cases xs with
      | nil => rfl
      | cons y ys =>
          rw [List.getLastD_cons]
          rw [show (x :: y :: ys).length - 1 = ((y :: ys).length - 1) + 1 by
            simp [List.length_cons]]
          rw [List.getD_cons_succ]
          rw [ih (by simp)]
          exact getLastD_indep (y :: ys) 0 x (by simp)

/-- A closed cycle links edge `i` to edge `(i+1) mod n`, for every
position `i`. -/
theorem cyc_getD {s : PolyState} (hc : cyc s) :
    ∀ i, i < s.edges.length →
      edgeRel s.edata (s.edges.getD i 0)
        (s.edges.getD ((i + 1) % s.edges.length) 0) := by
  obtain ⟨hne, hnd, hch, hwrap⟩ := hc
  intro i hi
  by_cases hlast : i + 1 < s.edges.length
  · rw [Nat.mod_eq_of_lt hlast]
    have := List.chain'_iff_get.1 hch i (by omega)
    rwa [List.getD_eq_get _ _ hi, List.getD_eq_get _ _ hlast]
  · have hieq : i = s.edges.length - 1 := by omega
    have hmod : (i + 1) % s.edges.length = 0 := by
      rw [show i + 1 = s.edges.length by omega, Nat.mod_self]
    rw [hmod, hieq, getD_last_eq_getLastD _ hne, getD_zero_eq_headD _ hne]
    exact hwrap

/-- Following `nextEdge` from position `i` for `k` steps lands on
position `(i+k) mod n`. -/
theorem iterNext_getD {s : PolyState} (hc : cyc s) :
    ∀ (k i : Nat), i < s.edges.length →
      iterNext s k (s.edges.getD i 0) =
        some (s.edges.getD ((i + k) % s.edges.length) 0) := by
  intro k
  induction k with
  | zero =>
      intro i hi
      rw [show iterNext s 0 (s.edges.getD i 0) = some (s.edges.getD i 0) from rfl]
      simp [Nat.mod_eq_of_lt hi]
  | succ k ih =>
      intro i hi
      have hrel := cyc_getD ⟨hc.1, hc.2.1, hc.2.2.1, hc.2.2.2⟩ i hi
      have hn : 0 < s.edges.length := by omega
      rw [show iterNext s (k + 1) (s.edges.getD i 0) =
        (match (s.edata (s.edges.getD i 0)).nextEdge with
         | none => none
         | some y => iterNext s k y) from rfl]
      rw [hrel.1]
      show iterNext s k (s.edges.getD ((i + 1) % s.edges.length) 0) =
        some (s.edges.getD ((i + (k + 1)) % s.edges.length) 0)
      rw [ih ((i + 1) % s.edges.length) (Nat.mod_lt _ hn)]
      congr 2
      rw [Nat.mod_add_mod]
      congr 1
      omega

theorem cyc_conclusions {s : PolyState} (hc : cyc s) :
    (∀ x ∈ s.edges, iterNext s s.edges.length x = some x) ∧
    (∀ x ∈ s.edges, ∀ k, 0 < k → k < s.edges.length → iterNext s k x ≠ some x) ∧
    (∀ x ∈ s.edges, ∃ y ∈ s.edges,
      (s.edata x).nextEdge = some y ∧ (s.edata y).prevEdge = some x) := by
  have hn : 0 < s.edges.length := List.length_pos.2 hc.1
  have hmem : ∀ x ∈ s.edges, ∃ i, i < s.edges.length ∧ s.edges.getD i 0 = x := by
    intro x hx
    obtain ⟨⟨i, hi⟩, hg⟩ := List.mem_iff_get.1 hx
    exact ⟨i, hi, by rw [List.getD_eq_get _ _ hi]; exact hg⟩
  refine ⟨?_, ?_, ?_⟩
  · intro x hx
    obtain ⟨i, hi, rfl⟩ := hmem x hx
    rw [iterNext_getD hc s.edges.length i hi]
    congr 1
    rw [Nat.add_mod_right, Nat.mod_eq_of_lt hi]
  · intro x hx k hk0 hkn hcon
    obtain ⟨i, hi, rfl⟩ := hmem x hx
    rw [iterNext_getD hc k i hi] at hcon
    have hik : (i + k) % s.edges.length < s.edges.length := Nat.mod_lt _ hn
    have heq : s.edges.get ⟨(i + k) % s.edges.length, hik⟩ = s.edges.get ⟨i, hi⟩ := by
      have := Option.some.inj hcon
      rwa [List.getD_eq_get _ _ hik, List.getD_eq_get _ _ hi] at this
    have := (List.Nodup.get_inj_iff hc.2.1).1 heq
    have hmodne : (i + k) % s.edges.length ≠ i := by
      by_cases hlt : i + k < s.edges.length
      · rw [Nat.mod_eq_of_lt hlt]; omega
      · have h2n : i + k - s.edges.length < s.edges.length := by omega
        rw [show (i + k) % s.edges.length = (i + k - s.edges.length) % s.edges.length by
          rw [← Nat.mod_eq_sub_mod (by omega)]]
        rw [Nat.mod_eq_of_lt h2n]
        omega
    exact hmodne (by simpa using this)
  · intro x hx
    obtain ⟨i, hi, rfl⟩ := hmem x hx
    have hrel := cyc_getD hc i hi
    refine ⟨s.edges.getD ((i + 1) % s.edges.length) 0, ?_, hrel.1, hrel.2⟩
    have hlt : (i + 1) % s.edges.length < s.edges.length := Nat.mod_lt _ hn
    rw [List.getD_eq_get _ _ hlt]
    exact List.get_mem _ _ _

theorem getLastD_mem : ∀ (l : List Nat), l ≠ [] → l.getLastD 0 ∈ l := by
  intro l
  induction l with
  | nil => intro h; exact absurd rfl h
  | cons x xs ih =>
      intro _
      cases xs with
      | nil => exact List.mem_singleton.2 rfl
      | cons y ys =>
          rw [List.getLastD_cons]
          rw [getLastD_indep (y :: ys) x 0 (by simp)]
          exact List.mem_cons_of_mem x (ih (by simp))

theorem getLast?_eq_getLastD (l : List Nat) (h : l ≠ []) :
    l.getLast? = some (l.getLastD 0) := by
  have hs : l.getLast?.isSome := List.getLast?_isSome.2 h
  obtain ⟨g, hg⟩ := Option.isSome_iff_exists.1 hs
  rw [List.getLastD_eq_getLast?, hg]
  rfl

theorem getLastD_not_mem_dropLast (l : List Nat) (hnd : l.Nodup) (h : l ≠ []) :
    l.getLastD 0 ∉ l.dropLast := by
  have hsplit : l.dropLast ++ [l.getLast h] = l := List.dropLast_append_getLast h
  have hlast : l.getLastD 0 = l.getLast h := by
    rw [List.getLastD_eq_getLast?, List.getLast?_eq_getLast l h]
    rfl
  rw [hlast]
  rw [← hsplit] at hnd
  obtain ⟨-, -, hdisj⟩ := List.nodup_append.1 hnd
  intro hc
  exact hdisj hc (List.mem_singleton.2 rfl)

/-- C1: for every polygon whose edges form one closed cycle (in
edge-sequence order) with `vertices.length = edges.length`, after any
`addVertexOnEdge(edge, point)` call the vertex count and edge count each
increase by exactly 1, the lengths stay equal, the edges again form one
closed cycle, following `nextEdge` from any edge returns to it after
exactly `edge count` steps and not earlier, and
`edge.nextEdge.prevEdge === edge` for every edge. -/
theorem C1_addVertexOnEdge_preserves_topology (s : PolyState) (e : Nat) (pt : ℚ × ℚ)
    (hfresh : ∀ x ∈ s.edges, x < s.freshE)
    (he : e ∈ s.edges) (hcyc : cyc s)
    (hlen : s.verts.length = s.edges.length) :
    (addVertexOnEdge s e pt).verts.length = s.verts.length + 1 ∧
    (addVertexOnEdge s e pt).edges.length = s.edges.length + 1 ∧
    (addVertexOnEdge s e pt).verts.length = (addVertexOnEdge s e pt).edges.length ∧
    cyc (addVertexOnEdge s e pt) ∧
    (∀ x ∈ (addVertexOnEdge s e pt).edges,
      iterNext (addVertexOnEdge s e pt) (addVertexOnEdge s e pt).edges.length x =
        some x) ∧
    (∀ x ∈ (addVertexOnEdge s e pt).edges, ∀ k, 0 < k →
      k < (addVertexOnEdge s e pt).edges.length →
      iterNext (addVertexOnEdge s e pt) k x ≠ some x) ∧
    (∀ x ∈ (addVertexOnEdge s e pt).edges, ∃ y ∈ (addVertexOnEdge s e pt).edges,
      ((addVertexOnEdge s e pt).edata x).nextEdge = some y ∧
      ((addVertexOnEdge s e pt).edata y).prevEdge = some x) := by
  obtain ⟨u, v, huv⟩ := List.append_of_mem he
  set a := s.freshE with ha
  set b := s.freshE + 1 with hb
  have hmemu : ∀ x ∈ u, x ∈ s.edges := by
    intro x hx; rw [huv]; exact List.mem_append_left _ hx
  have hmemv : ∀ x ∈ v, x ∈ s.edges := by
    intro x hx; rw [huv]
    exact List.mem_append_right _ (List.mem_cons_of_mem e hx)
  have hea : e ≠ a := by have := hfresh e he; omega
  have heb : e ≠ b := by have := hfresh e he; omega
  have hab : a ≠ b := by omega
  have hau : a ∉ u := fun hc => by have := hfresh a (hmemu a hc); omega
  have hav : a ∉ v := fun hc => by have := hfresh a (hmemv a hc); omega
  have hbu : b ∉ u := fun hc => by have := hfresh b (hmemu b hc); omega
  have hbv : b ∉ v := fun hc => by have := hfresh b (hmemv b hc); omega
  obtain ⟨hnd_u, hnd_ev, hdisj⟩ := List.nodup_append.1 (huv ▸ hcyc.2.1)
  have heu : e ∉ u := fun hc => hdisj hc (List.mem_cons_self e v)
  have hev' : e ∉ v := (List.nodup_cons.1 hnd_ev).1
  have hnd_v : v.Nodup := (List.nodup_cons.1 hnd_ev).2
  have hedges' : (addVertexOnEdge s e pt).edges = u ++ a :: b :: v := by
    show jsSpliceReplace2 s.edges (jsIndexOf s.edges e) a b = u ++ a :: b :: v
    rw [huv]
    exact jsSpliceReplace2_append u v e a b heu
  set h2 := Function.update (Function.update s.edata a
    ⟨(s.edata e).src, s.freshV, none, none⟩) b
    ⟨s.freshV, (s.edata e).tgt, none, none⟩ with hh2
  have hedata' : (addVertexOnEdge s e pt).edata = step6 h2 e a b := rfl
  have hh2other : ∀ x, x ≠ a → x ≠ b → h2 x = s.edata x := by
    intro x hxa hxb
    rw [hh2, Function.update_apply, Function.update_apply, if_neg hxb, if_neg hxa]
  have hh2e : h2 e = s.edata e := hh2other e hea heb
  have hvertslen : (addVertexOnEdge s e pt).verts.length = s.verts.length + 1 :=
    jsSpliceInsert_length _ _ _
  have hedgeslen : (addVertexOnEdge s e pt).edges.length = s.edges.length + 1 := by
    rw [hedges', huv]; simp; omega
  have hch := hcyc.2.2.1
  have hwrap := hcyc.2.2.2
  rw [huv] at hch hwrap
  obtain ⟨hchu, hchev, hbound⟩ := List.chain'_append.1 hch
  obtain ⟨hef, hchv⟩ := List.chain'_cons'.1 hchev
  have hcyc' : cyc (addVertexOnEdge s e pt) := by
    rcases u with - | ⟨u0, u'⟩
    · rcases v with - | ⟨v0, v'⟩
      · -- one-edge self-loop: the sequential relink produces a two-cycle
        have hwe : edgeRel s.edata e e := by simpa using hwrap
        obtain ⟨h6a, h6b, h6e, h6o⟩ :=
          step6_eval_alias h2 e a b (by rw [hh2e]; exact hwe.2) hea heb hab
        refine ⟨?_, ?_, ?_, ?_⟩
        · rw [hedges']; simp
        · rw [hedges']; simp [hab]
        · rw [hedges', hedata']
          simp only [List.nil_append]
          refine List.chain'_cons.2 ⟨⟨?_, ?_⟩, List.chain'_singleton b⟩
          · rw [h6a]
          · rw [h6b]
        · rw [hedges', hedata']
          refine ⟨?_, ?_⟩
          · show ((step6 h2 e a b) b).nextEdge = some a
            rw [h6b]
          · show ((step6 h2 e a b) a).prevEdge = some b
            rw [h6a]
      · -- split the first edge: predecessor is the cycle's last edge
        set p := (v0 :: v').getLastD 0 with hpdef
        have hpm : p ∈ v0 :: v' := getLastD_mem _ (by simp)
        have hpa : p ≠ a := fun hc => hav (hc ▸ hpm)
        have hpb : p ≠ b := fun hc => hbv (hc ▸ hpm)
        have hpe' : p ≠ e := fun hc => hev' (hc ▸ hpm)
        have hqa : v0 ≠ a := fun hc => hav (hc ▸ List.mem_cons_self v0 v')
        have hqb : v0 ≠ b := fun hc => hbv (hc ▸ List.mem_cons_self v0 v')
        have hqe' : v0 ≠ e := fun hc => hev' (hc ▸ List.mem_cons_self v0 v')
        have hwp : edgeRel s.edata p e := by
          have h1 := hwrap
          simp only [List.nil_append] at h1
          rw [List.getLastD_cons] at h1
          rw [getLastD_indep (v0 :: v') e 0 (by simp)] at h1
          exact h1
        have hqrel : edgeRel s.edata e v0 := hef v0 rfl
        obtain ⟨h6a, h6b, h6other, h6p, h6q, h6pq⟩ :=
          step6_eval h2 e a b p v0 (by rw [hh2e]; exact hwp.2)
            (by rw [hh2e]; exact hqrel.1) hea heb hab hpa hpb hpe' hqa hqb hqe'
        have h6p_next : ((step6 h2 e a b) p).nextEdge = some a := by
          by_cases hpq : p = v0
          · rw [h6pq hpq]
          · rw [h6p hpq]
        have h6q_prev : ((step6 h2 e a b) v0).prevEdge = some b := by
          by_cases hpq : p = v0
          · rw [← hpq, h6pq hpq]
          · rw [h6q hpq]
        have h6next_oth : ∀ x, x ≠ a → x ≠ b → x ≠ p →
            ((step6 h2 e a b) x).nextEdge = (s.edata x).nextEdge := by
          intro x hxa hxb hxp
          by_cases hxq : x = v0
          · subst hxq
            rw [h6q (fun hc => hxp hc.symm)]
            show (h2 x).nextEdge = (s.edata x).nextEdge
            rw [hh2other x hxa hxb]
          · rw [h6other x hxa hxb hxp hxq, hh2other x hxa hxb]
        have h6prev_oth : ∀ x, x ≠ a → x ≠ b → x ≠ v0 →
            ((step6 h2 e a b) x).prevEdge = (s.edata x).prevEdge := by
          intro x hxa hxb hxq
          by_cases hxp : x = p
          · rw [hxp, h6p (fun hc => hxq (hxp ▸ hc))]
            show (h2 p).prevEdge = (s.edata p).prevEdge
            rw [hh2other p hpa hpb]
          · rw [h6other x hxa hxb hxp hxq, hh2other x hxa hxb]
        have hnm : p ∉ (v0 :: v').dropLast := by
          rw [hpdef]
          exact getLastD_not_mem_dropLast _ hnd_v (by simp)
        refine ⟨?_, ?_, ?_, ?_⟩
        · rw [hedges']; simp
        · rw [hedges']
          simp only [List.nil_append]
          have hna : a ∉ b :: v0 :: v' := by
            intro hc
            rcases List.mem_cons.1 hc with h' | h'
            · exact hab h'
            · exact hav h'
          exact List.nodup_cons.2 ⟨hna, List.nodup_cons.2 ⟨hbv, hnd_v⟩⟩
        · rw [hedges', hedata']
          simp only [List.nil_append]
          refine List.chain'_cons.2 ⟨⟨?_, ?_⟩, ?_⟩
          · rw [h6a]
          · rw [h6b]
          refine List.chain'_cons.2 ⟨⟨?_, ?_⟩, ?_⟩
          · rw [h6b]
          · exact h6q_prev
          refine chain'_heap_congr ?_ ?_ hchv
          · intro x hx
            have hxv : x ∈ v0 :: v' := List.dropLast_subset _ hx
            exact h6next_oth x (fun hc => hav (hc ▸ hxv)) (fun hc => hbv (hc ▸ hxv))
              (fun hc => hnm (hc ▸ hx))
          · intro y hy
            have hyv : y ∈ v0 :: v' := List.tail_subset _ hy
            exact h6prev_oth y (fun hc => hav (hc ▸ hyv)) (fun hc => hbv (hc ▸ hyv))
              (fun hc => (List.nodup_cons.1 hnd_v).1 (hc ▸ hy))
        · rw [hedges', hedata']
          simp only [List.nil_append]
          have hgl : (a :: b :: v0 :: v').getLastD 0 = p := by
            rw [List.getLastD_cons, List.getLastD_cons]
            exact (getLastD_indep (v0 :: v') b 0 (by simp)).trans hpdef.symm
          show edgeRel (step6 h2 e a b) ((a :: b :: v0 :: v').getLastD 0)
            ((a :: b :: v0 :: v').headD 0)
          rw [hgl]
          show edgeRel (step6 h2 e a b) p a
          exact ⟨h6p_next, by rw [h6a]⟩
    · rcases v with - | ⟨v0, v'⟩
      · -- split the last edge: successor is the cycle's first edge
        set p := (u0 :: u').getLastD 0 with hpdef
        have hpm : p ∈ u0 :: u' := getLastD_mem _ (by simp)
        have hpa : p ≠ a := fun hc => hau (hc ▸ hpm)
        have hpb : p ≠ b := fun hc => hbu (hc ▸ hpm)
        have hpe' : p ≠ e := fun hc => heu (hc ▸ hpm)
        have hqa : u0 ≠ a := fun hc => hau (hc ▸ List.mem_cons_self u0 u')
        have hqb : u0 ≠ b := fun hc => hbu (hc ▸ List.mem_cons_self u0 u')
        have hqe' : u0 ≠ e := fun hc => heu (hc ▸ List.mem_cons_self u0 u')
        have hprel : edgeRel s.edata p e :=
          hbound p (getLast?_eq_getLastD _ (by simp)) e rfl
        have hqrel : edgeRel s.edata e u0 := by
          have h1 := hwrap
          have hgl2 : ((u0 :: u') ++ [e]).getLastD 0 = e := by
            rw [List.getLastD_eq_getLast?, List.getLast?_append_cons]
            rfl
          rw [hgl2] at h1
          exact h1
        obtain ⟨h6a, h6b, h6other, h6p, h6q, h6pq⟩ :=
          step6_eval h2 e a b p u0 (by rw [hh2e]; exact hprel.2)
            (by rw [hh2e]; exact hqrel.1) hea heb hab hpa hpb hpe' hqa hqb hqe'
        have h6p_next : ((step6 h2 e a b) p).nextEdge = some a := by
          by_cases hpq : p = u0
          · rw [h6pq hpq]
          · rw [h6p hpq]
        have h6q_prev : ((step6 h2 e a b) u0).prevEdge = some b := by
          by_cases hpq : p = u0
          · rw [← hpq, h6pq hpq]
          · rw [h6q hpq]
        have h6next_oth : ∀ x, x ≠ a → x ≠ b → x ≠ p →
            ((step6 h2 e a b) x).nextEdge = (s.edata x).nextEdge := by
          intro x hxa hxb hxp
          by_cases hxq : x = u0
          · subst hxq
            rw [h6q (fun hc => hxp hc.symm)]
            show (h2 x).nextEdge = (s.edata x).nextEdge
            rw [hh2other x hxa hxb]
          · rw [h6other x hxa hxb hxp hxq, hh2other x hxa hxb]
        have h6prev_oth : ∀ x, x ≠ a → x ≠ b → x ≠ u0 →
            ((step6 h2 e a b) x).prevEdge = (s.edata x).prevEdge := by
          intro x hxa hxb hxq
          by_cases hxp : x = p
          · rw [hxp, h6p (fun hc => hxq (hxp ▸ hc))]
            show (h2 p).prevEdge = (s.edata p).prevEdge
            rw [hh2other p hpa hpb]
          · rw [h6other x hxa hxb hxp hxq, hh2other x hxa hxb]
        have hnm : p ∉ (u0 :: u').dropLast := by
          rw [hpdef]
          exact getLastD_not_mem_dropLast _ hnd_u (by simp)
        refine ⟨?_, ?_, ?_, ?_⟩
        · rw [hedges']; simp
        · rw [hedges']
          refine List.nodup_append.2 ⟨hnd_u, ?_, ?_⟩
          · exact List.nodup_cons.2 ⟨by simp [hab], by simp⟩
          · intro x hxu hxab
            rcases List.mem_cons.1 hxab with h' | h'
            · exact hau (h' ▸ hxu)
            · have hxb : x = b := by simpa using h'
              exact hbu (hxb ▸ hxu)
        · rw [hedges', hedata']
          refine List.chain'_append.2 ⟨?_, ?_, ?_⟩
          · refine chain'_heap_congr ?_ ?_ hchu
            · intro x hx
              have hxu : x ∈ u0 :: u' := List.dropLast_subset _ hx
              exact h6next_oth x (fun hc => hau (hc ▸ hxu)) (fun hc => hbu (hc ▸ hxu))
                (fun hc => hnm (hc ▸ hx))
            · intro y hy
              have hyu : y ∈ u0 :: u' := List.tail_subset _ hy
              exact h6prev_oth y (fun hc => hau (hc ▸ hyu)) (fun hc => hbu (hc ▸ hyu))
                (fun hc => (List.nodup_cons.1 hnd_u).1 (hc ▸ hy))
          · refine List.chain'_cons.2 ⟨⟨?_, ?_⟩, List.chain'_singleton b⟩
            · rw [h6a]
            · rw [h6b]
          · intro x hx y hy
            rw [getLast?_eq_getLastD _ (by simp)] at hx
            have hxp : p = x := by simpa using hx
            have hya : a = y := by simpa using hy
            rw [← hxp, ← hya]
            exact ⟨h6p_next, by rw [h6a]⟩
        · rw [hedges', hedata']
          have hgl : ((u0 :: u') ++ [a, b]).getLastD 0 = b := by
            rw [List.getLastD_eq_getLast?, List.getLast?_append_cons]
            rfl
          show edgeRel (step6 h2 e a b) (((u0 :: u') ++ [a, b]).getLastD 0)
            (((u0 :: u') ++ [a, b]).headD 0)
          rw [hgl]
          show edgeRel (step6 h2 e a b) b u0
          exact ⟨by rw [h6b], h6q_prev⟩
      · -- interior split: predecessor in the head part, successor in the
        -- tail part of the edge sequence
        set p := (u0 :: u').getLastD 0 with hpdef
        have hpm : p ∈ u0 :: u' := getLastD_mem _ (by simp)
        have hpa : p ≠ a := fun hc => hau (hc ▸ hpm)
        have hpb : p ≠ b := fun hc => hbu (hc ▸ hpm)
        have hpe' : p ≠ e := fun hc => heu (hc ▸ hpm)
        have hqa : v0 ≠ a := fun hc => hav (hc ▸ List.mem_cons_self v0 v')
        have hqb : v0 ≠ b := fun hc => hbv (hc ▸ List.mem_cons_self v0 v')
        have hqe' : v0 ≠ e := fun hc => hev' (hc ▸ List.mem_cons_self v0 v')
        have hprel : edgeRel s.edata p e :=
          hbound p (getLast?_eq_getLastD _ (by simp)) e rfl
        have hqrel : edgeRel s.edata e v0 := hef v0 rfl
        have hwrel : edgeRel s.edata ((v0 :: v').getLastD 0) u0 := by
          have h1 := hwrap
          have hgl2 : ((u0 :: u') ++ e :: v0 :: v').getLastD 0 =
              (v0 :: v').getLastD 0 := by
            rw [List.getLastD_eq_getLast?, List.getLast?_append_cons,
              List.getLastD_eq_getLast?, List.getLast?_cons_cons]
          rw [hgl2] at h1
          exact h1
        obtain ⟨h6a, h6b, h6other, h6p, h6q, h6pq⟩ :=
          step6_eval h2 e a b p v0 (by rw [hh2e]; exact hprel.2)
            (by rw [hh2e]; exact hqrel.1) hea heb hab hpa hpb hpe' hqa hqb hqe'
        have hpq : p ≠ v0 := fun hc => hdisj (hc ▸ hpm)
          (List.mem_cons_of_mem e (List.mem_cons_self v0 v'))
        have h6p_next : ((step6 h2 e a b) p).nextEdge = some a := by
          rw [h6p hpq]
        have h6q_prev : ((step6 h2 e a b) v0).prevEdge = some b := by
          rw [h6q hpq]
        have h6next_oth : ∀ x, x ≠ a → x ≠ b → x ≠ p →
            ((step6 h2 e a b) x).nextEdge = (s.edata x).nextEdge := by
          intro x hxa hxb hxp
          by_cases hxq : x = v0
          · subst hxq
            rw [h6q (fun hc => hxp hc.symm)]
            show (h2 x).nextEdge = (s.edata x).nextEdge
            rw [hh2other x hxa hxb]
          · rw [h6other x hxa hxb hxp hxq, hh2other x hxa hxb]
        have h6prev_oth : ∀ x, x ≠ a → x ≠ b → x ≠ v0 →
            ((step6 h2 e a b) x).prevEdge = (s.edata x).prevEdge := by
          intro x hxa hxb hxq
          by_cases hxp : x = p
          · rw [hxp, h6p (fun hc => hxq (hxp ▸ hc))]
            show (h2 p).prevEdge = (s.edata p).prevEdge
            rw [hh2other p hpa hpb]
          · rw [h6other x hxa hxb hxp hxq, hh2other x hxa hxb]
        have hnmu : p ∉ (u0 :: u').dropLast := by
          rw [hpdef]
          exact getLastD_not_mem_dropLast _ hnd_u (by simp)
        refine ⟨?_, ?_, ?_, ?_⟩
        · rw [hedges']; simp
        · rw [hedges']
          refine List.nodup_append.2 ⟨hnd_u, ?_, ?_⟩
          · refine List.nodup_cons.2 ⟨?_, List.nodup_cons.2 ⟨hbv, hnd_v⟩⟩
            intro hc
            rcases List.mem_cons.1 hc with h' | h'
            · exact hab h'
            · exact hav h'
          · intro x hxu hxabv
            rcases List.mem_cons.1 hxabv with h' | h'
            · exact hau (h' ▸ hxu)
            · rcases List.mem_cons.1 h' with h'' | h''
              · exact hbu (h'' ▸ hxu)
              · exact hdisj hxu (List.mem_cons_of_mem e h'')
        · rw [hedges', hedata']
          refine List.chain'_append.2 ⟨?_, ?_, ?_⟩
          · refine chain'_heap_congr ?_ ?_ hchu
            · intro x hx
              have hxu : x ∈ u0 :: u' := List.dropLast_subset _ hx
              exact h6next_oth x (fun hc => hau (hc ▸ hxu)) (fun hc => hbu (hc ▸ hxu))
                (fun hc => hnmu (hc ▸ hx))
            · intro y hy
              have hyu : y ∈ u0 :: u' := List.tail_subset _ hy
              refine h6prev_oth y (fun hc => hau (hc ▸ hyu)) (fun hc => hbu (hc ▸ hyu))
                (fun hc => hdisj (hc ▸ hyu)
                  (List.mem_cons_of_mem e (List.mem_cons_self v0 v')))
          · refine List.chain'_cons.2 ⟨⟨?_, ?_⟩, ?_⟩
            · rw [h6a]
            · rw [h6b]
            refine List.chain'_cons.2 ⟨⟨?_, ?_⟩, ?_⟩
            · rw [h6b]
            · exact h6q_prev
            refine chain'_heap_congr ?_ ?_ hchv
            · intro x hx
              have hxv : x ∈ v0 :: v' := List.dropLast_subset _ hx
              refine h6next_oth x (fun hc => hav (hc ▸ hxv)) (fun hc => hbv (hc ▸ hxv))
                (fun hc => hdisj (hc ▸ hpm) (List.mem_cons_of_mem e (hc ▸ hxv)))
            · intro y hy
              have hyv : y ∈ v0 :: v' := List.tail_subset _ hy
              exact h6prev_oth y (fun hc => hav (hc ▸ hyv)) (fun hc => hbv (hc ▸ hyv))
                (fun hc => (List.nodup_cons.1 hnd_v).1 (hc ▸ hy))
          · intro x hx y hy
            rw [getLast?_eq_getLastD _ (by simp)] at hx
            have hxp : p = x := by simpa using hx
            have hya : a = y := by simpa using hy
            rw [← hxp, ← hya]
            exact ⟨h6p_next, by rw [h6a]⟩
        · rw [hedges', hedata']
          have hgl : ((u0 :: u') ++ a :: b :: v0 :: v').getLastD 0 =
              (v0 :: v').getLastD 0 := by
            rw [List.getLastD_eq_getLast?, List.getLast?_append_cons,
              List.getLast?_cons_cons, List.getLast?_cons_cons,
              List.getLastD_eq_getLast?]
          show edgeRel (step6 h2 e a b) (((u0 :: u') ++ a :: b :: v0 :: v').getLastD 0)
            (((u0 :: u') ++ a :: b :: v0 :: v').headD 0)
          rw [hgl]
          show edgeRel (step6 h2 e a b) ((v0 :: v').getLastD 0) u0
          have hw : (v0 :: v').getLastD 0 ∈ v0 :: v' := getLastD_mem _ (by simp)
          refine ⟨?_, ?_⟩
          · rw [h6next_oth ((v0 :: v').getLastD 0) (fun hc => hav (hc ▸ hw))
              (fun hc => hbv (hc ▸ hw))
              (fun hc => hdisj (hc ▸ hpm) (List.mem_cons_of_mem e (hc ▸ hw)))]
            exact hwrel.1
          · rw [h6prev_oth u0 (fun hc => hau (hc ▸ List.mem_cons_self u0 u'))
              (fun hc => hbu (hc ▸ List.mem_cons_self u0 u'))
              (fun hc => hdisj (hc ▸ List.mem_cons_self u0 u')
                (List.mem_cons_of_mem e (List.mem_cons_self v0 v')))]
            exact hwrel.2
  refine ⟨hvertslen, hedgeslen, by omega, hcyc', (cyc_conclusions hcyc').1,
    (cyc_conclusions hcyc').2.1, (cyc_conclusions hcyc').2.2⟩

instance (s : PolyState) : Decidable (cyc s) :=
  inferInstanceAs (Decidable (s.edges ≠ [] ∧ s.edges.Nodup ∧
    List.Chain' (edgeRel s.edata) s.edges ∧
    edgeRel s.edata (s.edges.getLastD 0) (s.edges.headD 0)))

/-- Concrete square polygon topology: vertices `0..3`, edges `10..13`
forming one closed cycle in sequence order. -/
def sqPoly : PolyState where
  verts := [0, 1, 2, 3]
  edges := [10, 11, 12, 13]
  edata := fun n =>
    if n = 10 then ⟨0, 1, some 13, some 11⟩
    else if n = 11 then ⟨1, 2, some 10, some 12⟩
    else if n = 12 then ⟨2, 3, some 11, some 13⟩
    else if n = 13 then ⟨3, 0, some 12, some 10⟩
    else ⟨0, 0, none, none⟩
  vedges := fun n =>
    if n = 0 then [13, 10] else if n = 1 then [10, 11]
    else if n = 2 then [11, 12] else if n = 3 then [12, 13] else []
  vpos := fun _ => (0, 0)
  doors := []
  objs := []
  freshV := 4
  freshE := 14
  freshD := 0

theorem sqPoly_cyc : cyc sqPoly := by
  refine ⟨by decide, by decide, ?_, by decide⟩
  refine List.chain'_cons.2 ⟨by decide, ?_⟩
  refine List.chain'_cons.2 ⟨by decide, ?_⟩
  refine List.chain'_cons.2 ⟨by decide, ?_⟩
  exact List.chain'_singleton _

/-- Witness for C1: splitting edge `11` of the concrete square satisfies
the theorem's hypotheses, and all conclusions follow. -/
theorem C1_addVertexOnEdge_preserves_topology_witness :
    ((∀ x ∈ sqPoly.edges, x < sqPoly.freshE) ∧ 11 ∈ sqPoly.edges ∧ cyc sqPoly ∧
      sqPoly.verts.length = sqPoly.edges.length) ∧
    ((addVertexOnEdge sqPoly 11 (2, 2)).verts.length = sqPoly.verts.length + 1 ∧
     (addVertexOnEdge sqPoly 11 (2, 2)).edges.length = sqPoly.edges.length + 1 ∧
     (addVertexOnEdge sqPoly 11 (2, 2)).verts.length =
       (addVertexOnEdge sqPoly 11 (2, 2)).edges.length ∧
     cyc (addVertexOnEdge sqPoly 11 (2, 2)) ∧
     (∀ x ∈ (addVertexOnEdge sqPoly 11 (2, 2)).edges,
       iterNext (addVertexOnEdge sqPoly 11 (2, 2))
         (addVertexOnEdge sqPoly 11 (2, 2)).edges.length x = some x) ∧
     (∀ x ∈ (addVertexOnEdge sqPoly 11 (2, 2)).edges, ∀ k, 0 < k →
       k < (addVertexOnEdge sqPoly 11 (2, 2)).edges.length →
       iterNext (addVertexOnEdge sqPoly 11 (2, 2)) k x ≠ some x) ∧
     (∀ x ∈ (addVertexOnEdge sqPoly 11 (2, 2)).edges,
       ∃ y ∈ (addVertexOnEdge sqPoly 11 (2, 2)).edges,
       ((addVertexOnEdge sqPoly 11 (2, 2)).edata x).nextEdge = some y ∧
       ((addVertexOnEdge sqPoly 11 (2, 2)).edata y).prevEdge = some x)) :=
  ⟨⟨by decide, by decide, sqPoly_cyc, by decide⟩,
   C1_addVertexOnEdge_preserves_topology sqPoly 11 (2, 2)
     (by decide) (by decide) sqPoly_cyc (by decide)⟩

theorem jsSpliceRemove1_len {α : Type} (u v : List α) (d : α) :
    jsSpliceRemove1 (u ++ d :: v) (u.length : Int) = u ++ v := by
  unfold jsSpliceRemove1
  have hle : u.length ≤ (u ++ d :: v).length := by simp
  rw [jsSpliceStart_natCast _ _ hle]
  have htake : (u ++ d :: v).take u.length = u := List.take_left u (d :: v)
  have hdrop : (u ++ d :: v).drop (u.length + 1) = v := by
    rw [show u ++ d :: v = (u ++ [d]) ++ v by simp]
    rw [show u.length + 1 = (u ++ [d]).length by simp]
    exact List.drop_left (u ++ [d]) v
  simp only [htake, hdrop]

/-- C8: `removeDoor(door)` removes the door (by identity) from both the
`doors` list and the `_objects` child list when present; when the door
is not present the call is a complete no-op. -/
theorem C8_removeDoor_removes_or_noop (s : PolyState) (d : Nat) :
    (d ∈ s.doors → s.doors.Nodup →
      d ∉ (removeDoor s d).doors ∧
      (removeDoor s d).doors.length + 1 = s.doors.length ∧
      (∀ x ∈ s.doors, x ≠ d → x ∈ (removeDoor s d).doors) ∧
      ObjId.d d ∉ (removeDoor s d).objs) ∧
    (d ∉ s.doors → removeDoor s d = s) := by
  constructor
  · intro hd hnd
    obtain ⟨u, v, huv⟩ := List.append_of_mem hd
    obtain ⟨hnd_u, hnd_dv, hdisj⟩ := List.nodup_append.1 (huv ▸ hnd)
    have hdu : d ∉ u := fun hc => hdisj hc (List.mem_cons_self d v)
    have hdv : d ∉ v := (List.nodup_cons.1 hnd_dv).1
    have hidx : jsIndexOf s.doors d = (u.length : Int) := by
      rw [huv]; exact jsIndexOf_append d u v hdu
    have hcond : (jsIndexOf s.doors d > -1) = True := by
      rw [hidx]; simp; omega
    have hdoors' : (removeDoor s d).doors = u ++ v := by
      unfold removeDoor
      rw [hidx]
      rw [if_pos (by omega)]
      show (jsSpliceRemove1 s.doors (u.length : Int)) = u ++ v
      rw [huv]
      exact jsSpliceRemove1_len u v d
    have hobjs' : (removeDoor s d).objs =
        s.verts.map ObjId.v ++ s.edges.map ObjId.e ++ (u ++ v).map ObjId.d := by
      unfold removeDoor
      rw [hidx]
      rw [if_pos (by omega)]
      show s.verts.map ObjId.v ++ s.edges.map ObjId.e ++
        (jsSpliceRemove1 s.doors (u.length : Int)).map ObjId.d = _
      rw [huv, jsSpliceRemove1_len u v d]
    refine ⟨?_, ?_, ?_, ?_⟩
    · rw [hdoors']
      intro hc
      rcases List.mem_append.1 hc with h' | h'
      · exact hdu h'
      · exact hdv h'
    · rw [hdoors', huv]; simp; omega
    · intro x hx hxd
      rw [hdoors']
      rw [huv] at hx
      rcases List.mem_append.1 hx with h' | h'
      · exact List.mem_append_left _ h'
      · rcases List.mem_cons.1 h' with h'' | h''
        · exact absurd h'' hxd
        · exact List.mem_append_right _ h''
    · rw [hobjs']
      intro hc
      rcases List.mem_append.1 hc with h' | h'
      · rcases List.mem_append.1 h' with h'' | h''
        · obtain ⟨y, -, hy⟩ := List.mem_map.1 h''
          exact ObjId.noConfusion hy
        · obtain ⟨y, -, hy⟩ := List.mem_map.1 h''
          exact ObjId.noConfusion hy
      · obtain ⟨y, hymem, hy⟩ := List.mem_map.1 h'
        have : y = d := by injection hy
        rw [this] at hymem
        rcases List.mem_append.1 hymem with h'' | h''
        · exact hdu h''
        · exact hdv h''
  · intro hd
    have hidx : jsIndexOf s.doors d = -1 := jsIndexOf_neg_of_not_mem d s.doors 0 hd
    unfold removeDoor
    rw [hidx]
    rw [if_neg (by omega)]

/-- A square polygon carrying two doors, for the C8 witness. -/
def doorPoly : PolyState :=
  { sqPoly with
    doors := [100, 101],
    objs := sqPoly.verts.map ObjId.v ++ sqPoly.edges.map ObjId.e ++
      [ObjId.d 100, ObjId.d 101] }

/-- Witness for C8: removing door `100` (present) shrinks the door list
and purges it from `_objects`; removing door `102` (absent) is a
no-op. -/
theorem C8_removeDoor_removes_or_noop_witness :
    (100 ∈ doorPoly.doors ∧ doorPoly.doors.Nodup ∧
      (100 ∉ (removeDoor doorPoly 100).doors ∧
       (removeDoor doorPoly 100).doors.length + 1 = doorPoly.doors.length ∧
       (∀ x ∈ doorPoly.doors, x ≠ 100 → x ∈ (removeDoor doorPoly 100).doors) ∧
       ObjId.d 100 ∉ (removeDoor doorPoly 100).objs)) ∧
    (102 ∉ doorPoly.doors ∧ removeDoor doorPoly 102 = doorPoly) :=
  ⟨⟨by decide, by decide,
    (C8_removeDoor_removes_or_noop doorPoly 100).1 (by decide) (by decide)⟩,
   ⟨by decide, (C8_removeDoor_removes_or_noop doorPoly 102).2 (by decide)⟩⟩

/-- The two module-level gesture variables of the door tool in
`door.ts`: `isDrawing` and `startPoint`.  The `Idle` state is
`⟨false, none⟩`. -/
structure ToolState where
  isDrawing : Bool
  startPoint : Option JPoint
deriving DecidableEq, Repr

/-- `handleMouseDown` of the door tool (`door.ts`): snap the click to
the boundary (ignore the click if no edge is near); on a first click
record the start point; on a second click route a path between the two
snapped points — if routing yields fewer than 2 points, silently reset
to `Idle` without creating anything, otherwise create the door path and
attach it via `addDoor` (the created `fabric.Path` is modelled by a
fresh door id; `cleanup` and redraw requests are presentation-only). -/
def handleMouseDown (segs : List Seg) (pointer : JPoint) (t : ToolState)
    (s : PolyState) : ToolState × PolyState :=
  match findClosestEdgePoint pointer segs with
  | none => (t, s)
  | some result =>
      if !t.isDrawing then
        ({ isDrawing := true, startPoint := some result.1 }, s)
      else
        match t.startPoint with
        | none => (t, s)
          -- source dereferences `startPoint!` here; with `isDrawing`
          -- set, `startPoint` is always set, so this case is unreachable
        | some startPoint =>
            let localPathPoints := findPathBetweenPoints startPoint result.1 segs
            if localPathPoints.length < 2 then
              ({ isDrawing := false, startPoint := none }, s)
            else
              ({ isDrawing := false, startPoint := none },
                { addDoor s s.freshD with freshD := s.freshD + 1 })

/-- C9: in the two-click door gesture, when the second valid snap occurs
but path routing fails (fewer than 2 points), the gesture resets to
`Idle` (`isDrawing` false, `startPoint` null) and no door artifact is
created: the polygon state — in particular its `doors` list and
`_objects` child list — is unchanged. -/
theorem C9_routing_failure_resets_idle (segs : List Seg) (pointer : JPoint)
    (t : ToolState) (s : PolyState) (sp : JPoint) (r : JPoint × Nat)
    (hdraw : t.isDrawing = true) (hsp : t.startPoint = some sp)
    (hsnap : findClosestEdgePoint pointer segs = some r)
    (hfail : (findPathBetweenPoints sp r.1 segs).length < 2) :
    handleMouseDown segs pointer t s =
      ({ isDrawing := false, startPoint := none }, s) ∧
    (handleMouseDown segs pointer t s).2.doors = s.doors ∧
    (handleMouseDown segs pointer t s).2.objs = s.objs := by
  obtain ⟨tid, tsp⟩ := t
  simp only at hdraw hsp
  subst hdraw
  subst hsp
  have hmain : handleMouseDown segs pointer ⟨true, some sp⟩ s =
      ({ isDrawing := false, startPoint := none }, s) := by
    have hred : handleMouseDown segs pointer ⟨true, some sp⟩ s =
        if (findPathBetweenPoints sp r.1 segs).length < 2 then
          ({ isDrawing := false, startPoint := none }, s)
        else ({ isDrawing := false, startPoint := none },
          { addDoor s s.freshD with freshD := s.freshD + 1 }) := by
      unfold handleMouseDown
      rw [hsnap]
      rfl
    rw [hred, if_pos hfail]
  exact ⟨hmain, by rw [hmain], by rw [hmain]⟩

def c9Segs : List Seg := [⟨⟨num 0, num 0⟩, ⟨num 10, num 0⟩⟩]

unseal Rat.mul Rat.inv Rat.add Rat.sub Nat.gcd in
/-- Witness for C9: with one edge from (0,0) to (10,0), a second click at
(5,7) snaps to ((5,0), edge 0), but the recorded start point (100,100) is
too far from every edge, so routing returns fewer than 2 points and the
gesture resets to the idle state without touching the polygon. -/
theorem C9_routing_failure_resets_idle_witness :
    (⟨true, some ⟨num 100, num 100⟩⟩ : ToolState).isDrawing = true ∧
    (⟨true, some ⟨num 100, num 100⟩⟩ : ToolState).startPoint =
      some ⟨num 100, num 100⟩ ∧
    findClosestEdgePoint ⟨num 5, num 7⟩ c9Segs = some (⟨num 5, num 0⟩, 0) ∧
    (findPathBetweenPoints ⟨num 100, num 100⟩ ⟨num 5, num 0⟩ c9Segs).length < 2 ∧
    handleMouseDown c9Segs ⟨num 5, num 7⟩
        ⟨true, some ⟨num 100, num 100⟩⟩ doorPoly =
      ({ isDrawing := false, startPoint := none }, doorPoly) :=
  ⟨rfl, rfl, by decide, by decide,
    (C9_routing_failure_resets_idle c9Segs ⟨num 5, num 7⟩
      ⟨true, some ⟨num 100, num 100⟩⟩ doorPoly ⟨num 100, num 100⟩
      (⟨num 5, num 0⟩, 0) rfl rfl (by decide) (by decide)).1⟩
